import Mathlib

/-!
Verification development for the blest-go repository (src/blest.go).

The Go source operates on dynamically-typed JSON-like values
(interface values holding maps, slices, strings, numbers, booleans,
nil).  We embed those values as the inductive type Json below.  Go
numbers arriving through encoding/json are float64; every number that
the code itself constructs or inspects (status codes, timeouts) is
integral, so numbers are modelled as Int.  Go maps of type
map[string]interface a are modelled as association lists built from
the empty list by an insert that replaces the first occurrence of the
key; such lists always have pairwise distinct keys, exactly like a Go
map, and lookup takes the first (unique) binding.  Go map equality is
key-set based (maps are unordered), which is mirrored by the Jeqv
relation defined later.
-/

inductive Json where
  | null : Json
  | bool : Bool → Json
  | num  : Int → Json
  | str  : String → Json
  | arr  : List Json → Json
  | obj  : List (String × Json) → Json
  deriving Repr

abbrev JObj := List (String × Json)

/-- Go map lookup: the (unique) binding of a key, modelled as the first
binding in the association list. -/
def lookupO {α : Type} (fields : List (String × α)) (k : String) : Option α :=
  match fields with
  | [] => none
  | (k2, v) :: rest => if k2 = k then some v else lookupO rest k

/-- Go map assignment m[k] = v: replace the first binding of k, or append
a fresh binding. -/
def insertO {α : Type} (fields : List (String × α)) (k : String) (v : α) : List (String × α) :=
  match fields with
  | [] => [(k, v)]
  | (k2, w) :: rest => if k2 = k then (k2, v) :: rest else (k2, w) :: insertO rest k v

mutual

def jsonDecEq : (a b : Json) → Decidable (a = b)
  | .null, .null => isTrue rfl
  | .bool a, .bool b =>
    match decEq a b with
    | isTrue h => isTrue (by rw [h])
    | isFalse h => isFalse (by intro hc; cases hc; exact h rfl)
  | .num a, .num b =>
    match decEq a b with
    | isTrue h => isTrue (by rw [h])
    | isFalse h => isFalse (by intro hc; cases hc; exact h rfl)
  | .str a, .str b =>
    match decEq a b with
    | isTrue h => isTrue (by rw [h])
    | isFalse h => isFalse (by intro hc; cases hc; exact h rfl)
  | .arr a, .arr b =>
    match jsonListDecEq a b with
    | isTrue h => isTrue (by rw [h])
    | isFalse h => isFalse (by intro hc; cases hc; exact h rfl)
  | .obj a, .obj b =>
    match jsonObjDecEq a b with
    | isTrue h => isTrue (by rw [h])
    | isFalse h => isFalse (by intro hc; cases hc; exact h rfl)
  | .null, .bool _ => isFalse (by intro h; cases h)
  | .null, .num _ => isFalse (by intro h; cases h)
  | .null, .str _ => isFalse (by intro h; cases h)
  | .null, .arr _ => isFalse (by intro h; cases h)
  | .null, .obj _ => isFalse (by intro h; cases h)
  | .bool _, .null => isFalse (by intro h; cases h)
  | .bool _, .num _ => isFalse (by intro h; cases h)
  | .bool _, .str _ => isFalse (by intro h; cases h)
  | .bool _, .arr _ => isFalse (by intro h; cases h)
  | .bool _, .obj _ => isFalse (by intro h; cases h)
  | .num _, .null => isFalse (by intro h; cases h)
  | .num _, .bool _ => isFalse (by intro h; cases h)
  | .num _, .str _ => isFalse (by intro h; cases h)
  | .num _, .arr _ => isFalse (by intro h; cases h)
  | .num _, .obj _ => isFalse (by intro h; cases h)
  | .str _, .null => isFalse (by intro h; cases h)
  | .str _, .bool _ => isFalse (by intro h; cases h)
  | .str _, .num _ => isFalse (by intro h; cases h)
  | .str _, .arr _ => isFalse (by intro h; cases h)
  | .str _, .obj _ => isFalse (by intro h; cases h)
  | .arr _, .null => isFalse (by intro h; cases h)
  | .arr _, .bool _ => isFalse (by intro h; cases h)
  | .arr _, .num _ => isFalse (by intro h; cases h)
  | .arr _, .str _ => isFalse (by intro h; cases h)
  | .arr _, .obj _ => isFalse (by intro h; cases h)
  | .obj _, .null => isFalse (by intro h; cases h)
  | .obj _, .bool _ => isFalse (by intro h; cases h)
  | .obj _, .num _ => isFalse (by intro h; cases h)
  | .obj _, .str _ => isFalse (by intro h; cases h)
  | .obj _, .arr _ => isFalse (by intro h; cases h)

def jsonListDecEq : (a b : List Json) → Decidable (a = b)
  | [], [] => isTrue rfl
  | [], _ :: _ => isFalse (by intro h; cases h)
  | _ :: _, [] => isFalse (by intro h; cases h)
  | x :: xs, y :: ys =>
    match jsonDecEq x y with
    | isTrue h1 =>
      match jsonListDecEq xs ys with
      | isTrue h2 => isTrue (by rw [h1, h2])
      | isFalse h2 => isFalse (by intro hc; cases hc; exact h2 rfl)
    | isFalse h1 => isFalse (by intro hc; cases hc; exact h1 rfl)

def jsonObjDecEq : (a b : JObj) → Decidable (a = b)
  | [], [] => isTrue rfl
  | [], _ :: _ => isFalse (by intro h; cases h)
  | _ :: _, [] => isFalse (by intro h; cases h)
  | (k1, v1) :: xs, (k2, v2) :: ys =>
    match decEq k1 k2 with
    | isTrue hk =>
      match jsonDecEq v1 v2 with
      | isTrue h1 =>
        match jsonObjDecEq xs ys with
        | isTrue h2 => isTrue (by rw [hk, h1, h2])
        | isFalse h2 => isFalse (by intro hc; cases hc; exact h2 rfl)
      | isFalse h1 => isFalse (by intro hc; cases hc; exact h1 rfl)
    | isFalse hk => isFalse (by intro hc; cases hc; exact hk rfl)

end

instance : DecidableEq Json := jsonDecEq

/-!
Route-name validator, src/blest.go lines 66-115.

Go strings are byte sequences and the validator indexes bytes, while
the regular expressions match runes; for the ASCII character classes
of the route grammar the two coincide, and we model a route as the
list of its characters.  The two anchored regular expressions are
straight-line enough to embed directly as decidable predicates on the
character list: first character a letter, last character a letter or
digit, all characters drawn from the allowed class, length at least
two (at least three with the leading underscore for system routes).
-/

def isLetter (c : Char) : Bool :=
  (c ≥ 'a' && c ≤ 'z') || (c ≥ 'A' && c ≤ 'Z')

def isLetterOrNumber (c : Char) : Bool :=
  isLetter c || (c ≥ '0' && c ≤ '9')

/-- Characters admitted by the regex character class: letters, digits,
underscore, dash and forward slash. -/
def isRouteChar (c : Char) : Bool :=
  isLetterOrNumber c || c = '_' || c = '-' || c = '/'

/-- Tail of a regex match: all characters are route characters and the
final one is a letter or digit. -/
def routeRegexTail : List Char → Bool
  | [] => false
  | [c] => isLetterOrNumber c
  | c :: rest => isRouteChar c && routeRegexTail rest

/-- The regular-route regex from line 66 of the source. -/
def routeRegexMatch : List Char → Bool
  | [] => false
  | c :: rest => isLetter c && routeRegexTail rest

/-- The system-route regex from line 67 of the source. -/
def systemRouteRegexMatch : List Char → Bool
  | [] => false
  | c :: rest => c = '_' && routeRegexMatch rest

/-- strings.Split on the forward slash separator. -/
def splitSlash : List Char → List (List Char)
  | [] => [[]]
  | c :: rest =>
    if c = '/' then [] :: splitSlash rest
    else
      match splitSlash rest with
      | s :: ss => (c :: s) :: ss
      | [] => [[c]]

/-- Diagnostic for the first offending slash-separated segment, the loop
at lines 95-104 of the source. -/
def subRouteCheck : List (List Char) → String
  | [] => ""
  | seg :: rest =>
    if seg.length < 2 then "Sub-routes should be at least two characters long"
    else if !isLetter (seg.headI) then "Sub-routes should start with a letter"
    else if !isLetterOrNumber (seg.getLastI) then "Sub-routes should end with a letter or a number"
    else subRouteCheck rest

/-- validateRoute, src/blest.go lines 69-107.  Returns the empty string on
success and a diagnostic otherwise. -/
def validateRoute (route : List Char) (system : Bool) : String :=
  if route = [] then "Route is required"
  else if system && !systemRouteRegexMatch route then
    if route.length < 3 then "System route should be at least three characters long"
    else if route.headI ≠ '_' then "System route should start with an underscore"
    else if !isLetterOrNumber route.getLastI then "System route should end with a letter or a number"
    else "System route should contain only letters, numbers, dashes, underscores, and forward slashes"
  else if !system && !routeRegexMatch route then
    if route.length < 2 then "Route should be at least two characters long"
    else if !isLetter route.headI then "Route should start with a letter"
    else if !isLetterOrNumber route.getLastI then "Route should end with a letter or a number"
    else "Route should contain only letters, numbers, dashes, underscores, and forward slashes"
  else if '/' ∈ route then subRouteCheck (splitSlash route)
  else ""

/-- The segment requirement stated by the specification for every
slash-separated segment of a route name. -/
def segOk (seg : List Char) : Bool :=
  decide (2 ≤ seg.length) && isLetter seg.headI && isLetterOrNumber seg.getLastI

example : validateRoute "abc/deF0".toList false = "" := by decide
example : validateRoute "a".toList false = "Route should be at least two characters long" := by decide
example : validateRoute "0abc".toList false = "Route should start with a letter" := by decide
example : validateRoute "abc_".toList false = "Route should end with a letter or a number" := by decide
example : validateRoute "ab&c".toList false = "Route should contain only letters, numbers, dashes, underscores, and forward slashes" := by decide
example : validateRoute "abc/a/abc".toList false = "Sub-routes should be at least two characters long" := by decide
example : validateRoute "abc/_abc".toList false = "Sub-routes should start with a letter" := by decide
example : validateRoute "abc//abc".toList false = "Sub-routes should be at least two characters long" := by decide
example : validateRoute "".toList false = "Route is required" := by decide

/-!
Selector projection filterObject, src/blest.go lines 1001-1039.

The Go function walks the selector slice and assembles a fresh map.
Unchecked type assertions make it partial: the first element of a pair
must be a string, the second element (read only when it is needed)
must be a slice, and every element of a nested slice must be a map.  A
panic is modelled as the result none.  The arr == nil early return at
line 1002 concerns the nil slice, which the callers reach only through
an absent selector; a selector that is present is a (possibly empty)
slice and is modelled as a List Json, so that branch does not appear
here and the nil-selector case is handled at the call sites.
-/


theorem mem_of_headq_eq {v : Json} {l : List Json} (h : l.head? = some v) : v ∈ l := by
  cases l with
  | nil => simp at h
  | cons x xs => simp [List.head?] at h; simp [h]

theorem sizeOf_headq_le (l : List Json) : sizeOf l.head? ≤ sizeOf l := by
  cases l with
  | nil => simp
  | cons x xs =>
    have : 1 ≤ sizeOf xs := by cases xs <;> simp <;> omega
    simp only [List.head?, Option.some.sizeOf_spec, List.cons.sizeOf_spec]
    omega

mutual

/-- One selector entry: none is a panic, some none inserts nothing,
some (some (k, v)) records the map write filteredObj[k] = v. -/
def filterStep (obj : JObj) (e : Json) : Option (Option (String × Json)) :=
  match e with
  | .str k =>
    match lookupO obj k with
    | some v => some (some (k, v))
    | none => some none
  | .arr l =>
    match l with
    | [] => none
    | k0 :: lrest =>
      match k0 with
      | .str ks =>
        match lookupO obj ks with
        | none => some none
        | some (.arr xs) =>
          match filterList lrest.head? xs with
          | none => none
          | some ys => some (if 0 < ys.length then some (ks, .arr ys) else none)
        | some (.obj m) =>
          match lrest with
          | (.arr sl) :: _ =>
            match filterObject m sl with
            | none => none
            | some fm => some (if 0 < fm.length then some (ks, .obj fm) else none)
          | _ => none
        | some _ => some none
      | _ => none
  | _ => some none
termination_by (sizeOf e, 2)
decreasing_by
  all_goals apply Prod.Lex.left
  · have h1 := sizeOf_headq_le lrest
    simp only [Json.arr.sizeOf_spec, Json.str.sizeOf_spec, List.cons.sizeOf_spec]
    omega
  · simp only [Json.arr.sizeOf_spec, Json.str.sizeOf_spec, List.cons.sizeOf_spec]
    omega

/-- The nested-slice loop: filter every element, drop empty results;
the second pair component is only type-checked once an element exists. -/
def filterList (sub : Option Json) (xs : List Json) : Option (List Json) :=
  match xs with
  | [] => some []
  | x :: rest =>
    match x with
    | .obj m =>
      match sub with
      | some (.arr sl) =>
        match filterObject m sl with
        | none => none
        | some fm =>
          match filterList (some (.arr sl)) rest with
          | none => none
          | some ys => some (if 0 < fm.length then .obj fm :: ys else ys)
      | _ => none
    | _ => none
termination_by (sizeOf sub, sizeOf xs)
decreasing_by
  · apply Prod.Lex.left
    simp only [Option.some.sizeOf_spec, Json.arr.sizeOf_spec]
    omega
  · apply Prod.Lex.right
    simp only [List.cons.sizeOf_spec]
    omega

/-- The fold over the selector entries accumulating the fresh map. -/
def filterFold (obj : JObj) (arr : List Json) (acc : JObj) : Option JObj :=
  match arr with
  | [] => some acc
  | e :: rest =>
    match filterStep obj e with
    | none => none
    | some none => filterFold obj rest acc
    | some (some (k, v)) => filterFold obj rest (insertO acc k v)
termination_by (sizeOf arr, 0)
decreasing_by
  all_goals apply Prod.Lex.left
  all_goals simp only [List.cons.sizeOf_spec]
  all_goals omega

/-- filterObject for a present (non-nil) selector. -/
def filterObject (obj : JObj) (arr : List Json) : Option JObj :=
  filterFold obj arr []
termination_by (sizeOf arr, 1)
decreasing_by
  apply Prod.Lex.right
  omega

end

example : filterObject [("k", .arr [.num 5])] [.arr [.str "k", .arr [.str "a"]]] = none := by
  simp [filterObject, filterFold, filterStep, filterList, lookupO]
example : filterObject [] [.arr [.num 5, .arr []]] = none := by
  simp [filterObject, filterFold, filterStep, filterList, lookupO]
example : filterObject [("k", .obj [("a", .num 1)])] [.arr [.str "k", .num 7]] = none := by
  simp [filterObject, filterFold, filterStep, filterList, lookupO]
example : filterObject [("a", .num 1), ("b", .num 2)] [.str "a"] = some [("a", .num 1)] := by
  simp [filterObject, filterFold, filterStep, filterList, lookupO, insertO]
example : filterObject [("k", .arr [])] [.arr [.str "k"]] = some [] := by
  simp [filterObject, filterFold, filterStep, filterList, lookupO]
example : filterObject [("k", .arr [.obj [("a", .num 1), ("b", .num 2)]])]
    [.arr [.str "k", .arr [.str "a"]]] = some [("k", .arr [.obj [("a", .num 1)]])] := by
  simp [filterObject, filterFold, filterStep, filterList, lookupO, insertO]

/-!
Errors, src/blest.go lines 60-64 and 117-143.

BlestError carries message, status code and optional code; any other
Go error value is a generic error exposing only its text.  GoVal
models the dynamically-typed variadic arguments of NewBlestError and
HttpClient.Request; a Go map variable can itself be nil, hence the
inner Option on vmap.
-/

inductive GoVal where
  | vint (n : Int)
  | vstr (s : String)
  | vmap (m : Option JObj)
  | vnil
  | vother

structure BlestError where
  Message : String
  StatusCode : Int
  Code : String

inductive GoErr where
  | blest (e : BlestError)
  | generic (message : String)

/-- The Error method of BlestError, extended to generic errors. -/
def GoErr.errorText : GoErr → String
  | .blest e => e.Message
  | .generic m => m

/-- NewBlestError, src/blest.go lines 117-139.  Note the guards: the
status argument args[0] is read only when len(args) > 1 and the code
argument args[1] only when len(args) > 2. -/
def NewBlestError (message : String) (args : List GoVal) : GoErr :=
  let status : Int :=
    if 1 < args.length then
      match args.get? 0 with
      | some (.vint s) => if 0 < s then s else 500
      | _ => 500
    else 0
  let code : String :=
    if 2 < args.length then
      match args.get? 1 with
      | some (.vstr c) => c
      | _ => ""
    else ""
  .blest ⟨message, status, code⟩

/-!
The route reducer, src/blest.go lines 878-999.

The handler slice is dynamically typed; the type switch at lines
910-954 classifies each function as middleware (no return values,
may mutate the per-request context), controller (returns a value and
an error, and through the pointer variants may also mutate the
context), afterware (third parameter is the error) or unsupported.
The skip logic at lines 902-907 only consults the parameter count, so
a step is modelled as its parameter count together with its role and
a Lean function giving its behaviour on the body and context.

Concurrency model: the timer started at line 889 runs on its own
goroutine and fires at most once.  We model a schedule by fireAt: none
means the timer never fires before the final timedOut check, some k
means it fires just before loop iteration k (so iterations with index
at least k observe timedOut = true) and before the final check.  The
firing callback immediately emits the 500 tuple, and the goroutine
then returns at the timedOut check at line 967 without emitting
anything else.  A fire after the timer Stop at line 972 has raced with
the check and is outside this model.

The identifier selector at line 986 is not declared anywhere in the
file (the draft does not compile as written); on the Router.Handle
path no selector exists, so the branch is modelled as the selector
being absent and the result passing through unchanged.
-/

abbrev Ctx := JObj

inductive Step where
  | mw (argCount : Nat) (f : Json → Ctx → Ctx)
  | ctrl (argCount : Nat) (f : Json → Ctx → Ctx × Option Json × Option GoErr)
  | aft (f : Json → Ctx → Option GoErr → Ctx)
  | unsupported (argCount : Nat)

/-- The reflected parameter count consulted at lines 901-907. -/
def Step.arity : Step → Nat
  | .mw a _ => a
  | .ctrl a _ => a
  | .aft _ => 3
  | .unsupported a => a

structure RequestObject where
  ID : String
  Route : String
  Body : Json
  Headers : Json

structure Tup where
  id : String
  route : String
  result : Json
  error : Json
  deriving DecidableEq, Repr

/-- The error maps built at lines 892, 982 and 990: always exactly the
two keys message and statusCode. -/
def errJson (message : String) (statusCode : Int) : Json :=
  .obj [("message", .str message), ("statusCode", .num statusCode)]

/-- Status extraction at lines 976-981: a BlestError contributes its
StatusCode field, anything else defaults to 500. -/
def errStatusCode : GoErr → Int
  | .blest e => e.StatusCode
  | .generic _ => 500

/-- The pipeline loop at lines 900-965.  steps carries each handler
with its index so the schedule can say which iterations observe
timedOut; the state is the context, the accumulated result and the
error. -/
def runSteps (body : Json) (fireK : Option Nat) :
    List (Nat × Step) → Ctx → Option Json → Option GoErr → Ctx × Option Json × Option GoErr
  | [], ctx, result, err => (ctx, result, err)
  | (i, st) :: rest, ctx, result, err =>
    let timedOut : Bool := match fireK with | some k => decide (k ≤ i) | none => false
    if (timedOut || err.isSome) && st.arity ≤ 2 then
      runSteps body fireK rest ctx result err
    else if err.isNone && 2 < st.arity then
      runSteps body fireK rest ctx result err
    else
      match st with
      | .mw _ f => runSteps body fireK rest (f body ctx) result err
      | .ctrl _ f =>
        let out := f body ctx
        match out.2.2 with
        | some e => runSteps body fireK rest out.1 result (some e)
        | none =>
          match out.2.1 with
          | some tempResult =>
            match result with
            | none => runSteps body fireK rest out.1 (some tempResult) err
            | some _ =>
              (out.1, result, some (.generic "Middleware should not return anything but may mutate context"))
          | none => runSteps body fireK rest out.1 result err
      | .aft f => runSteps body fireK rest (f body ctx err) result err
      | .unsupported _ =>
        runSteps body fireK rest ctx result (some (.generic "Unsupported route handler function definition"))

/-- routeReducer, src/blest.go lines 878-999, as the list of tuples
sent on the result channel under the given timer schedule. -/
def routeReducer (handler : List Step) (request : RequestObject) (context : Ctx)
    (timeout : Int) (fireAt : Option Nat) : List Tup :=
  let fireK : Option Nat := if 0 < timeout then fireAt else none
  let safeContext := context
  let st := runSteps request.Body fireK handler.enum safeContext none none
  match fireK with
  | some _ => [⟨request.ID, request.Route, .null, errJson "Internal Server Error" 500⟩]
  | none =>
    match st.2.2 with
    | some e => [⟨request.ID, request.Route, .null, errJson e.errorText (errStatusCode e)⟩]
    | none =>
      match st.2.1 with
      | some r =>
        match r with
        | .obj _ => [⟨request.ID, request.Route, r, .null⟩]
        | _ =>
          [⟨request.ID, request.Route, .null, errJson "The result, if any, should be a JSON object" 500⟩,
           ⟨request.ID, request.Route, r, .null⟩]
      | none => [⟨request.ID, request.Route, .null, .null⟩]

/-!
Router registry, src/blest.go lines 32-48 and 288-387.

A Route stores a composed handler pipeline with metadata; a Router
stores its middleware, afterware, default timeout and the route map.
The Go route map has nondeterministic iteration order; the model
carries the registry as an association list and iterates it in list
order, which is one admissible order.  The nil-router guard at the
top of Merge and Namespace has no counterpart because the model
cannot express a nil pointer.  Merge and Namespace mutate the
receiver while looping and return early on a collision, so they are
modelled as returning the (possibly partially updated) router
together with the optional error.
-/

structure Route where
  Handler : List Step
  Description : String
  Schema : Json
  Visible : Bool
  Validate : Bool
  Timeout : Int

structure Router where
  Middleware : List Step
  Afterware : List Step
  Timeout : Int
  Routes : List (String × Route)

/-- contains, src/blest.go lines 331-338. -/
def contains : List String → String → Bool
  | [], _ => false
  | item :: rest, value => if item = value then true else contains rest value

/-- The loop of Merge, src/blest.go lines 307-326. -/
def mergeLoop (existingRoutes : List String) :
    Router → List (String × Route) → Router × Option String
  | r, [] => (r, none)
  | r, (name, rt) :: rest =>
    if contains existingRoutes name then
      (r, some ("Cannot merge duplicate routes: " ++ name))
    else
      let timeout := if 0 < rt.Timeout then rt.Timeout else r.Timeout
      let newRoute : Route :=
        { Handler := r.Middleware ++ rt.Handler ++ r.Afterware
          Description := rt.Description
          Schema := rt.Schema
          Visible := rt.Visible
          Validate := rt.Validate
          Timeout := timeout }
      let r2 : Router := { r with Routes := insertO r.Routes name newRoute }
      mergeLoop existingRoutes r2 rest

/-- Router.Merge, src/blest.go lines 288-329. -/
def Merge (r : Router) (router : Router) : Router × Option String :=
  if router.Routes.length = 0 then (r, some "No routes to merge")
  else mergeLoop (r.Routes.map Prod.fst) r router.Routes

/-- The loop of Namespace, src/blest.go lines 364-384.  Note that the
collision test at line 366 consults the original child name while the
write at line 375 uses the rewritten name. -/
def namespaceLoop (pfx : String) (existingRoutes : List String) :
    Router → List (String × Route) → Router × Option String
  | r, [] => (r, none)
  | r, (name, rt) :: rest =>
    let nsRoute := pfx ++ "/" ++ name
    if contains existingRoutes name then
      (r, some ("Cannot merge duplicate routes: " ++ nsRoute))
    else
      let timeout := if 0 < rt.Timeout then rt.Timeout else r.Timeout
      let newRoute : Route :=
        { Handler := r.Middleware ++ rt.Handler ++ r.Afterware
          Description := rt.Description
          Schema := rt.Schema
          Visible := rt.Visible
          Validate := rt.Validate
          Timeout := timeout }
      let r2 : Router := { r with Routes := insertO r.Routes nsRoute newRoute }
      namespaceLoop pfx existingRoutes r2 rest

/-- Router.Namespace, src/blest.go lines 340-387.  The source calls
validateRoute with a single argument (a draft slip); the non-system
variant is intended and used here. -/
def Namespace (r : Router) (pfx : String) (router : Router) : Router × Option String :=
  if validateRoute pfx.toList false ≠ "" then (r, some (validateRoute pfx.toList false))
  else if router.Routes.length = 0 then (r, some "No routes to namespace")
  else namespaceLoop pfx (r.Routes.map Prod.fst) r router.Routes

/-- The route entry produced for an imported child route as the
specification describes it: pipeline self.middleware ++ child handler
++ self.afterware, metadata copied, timeout from the child when
positive and otherwise the importing router default. -/
def composeRoute (r : Router) (rt : Route) : Route :=
  { Handler := r.Middleware ++ rt.Handler ++ r.Afterware
    Description := rt.Description
    Schema := rt.Schema
    Visible := rt.Visible
    Validate := rt.Validate
    Timeout := if 0 < rt.Timeout then rt.Timeout else r.Timeout }

/-!
The batch request handler, src/blest.go lines 779-864.

Every batch item has Go type slice-of-interface, so the isSlice guard
at line 790 is always satisfied and does not appear in the model.  The
id read at line 794 indexes request[0] and the route read at line 799
indexes request[1] without length checks, so an empty item or an item
of length one (with a valid id) panics; a panic is modelled as the
outcome hpanic.  Lines 848-851 assign id, route, headers and time
into the freshly copied per-item context with field syntax on a map
(another draft slip); the model performs the evidently intended map
writes.  The wall-clock timestamp is passed in as the parameter now,
and the per-item timer schedules of the reducer are passed as sched,
one optional firing point per batch index.
-/

inductive ParseOut where
  | perr (msg : String)
  | ppanic
  | pok (id : String) (route : String) (body : Option JObj) (headers : Option JObj)
  deriving DecidableEq, Repr

/-- The per-item shape checks of lines 789-818. -/
def parseItem (item : List Json) : ParseOut :=
  match item with
  | [] => .ppanic
  | first :: _ =>
    match first with
    | .str id =>
      if id = "" then .perr "Request item should have an ID"
      else
        match item.get? 1 with
        | none => .ppanic
        | some (.str route) =>
          if route = "" then .perr "Request item should have a route"
          else
            let body : Option JObj := match item.get? 2 with | some (.obj b) => some b | _ => none
            let headers : Option JObj := match item.get? 3 with | some (.obj h) => some h | _ => none
            .pok id route body headers
        | some _ => .perr "Request item should have a route"
    | _ => .perr "Request item should have an ID"

def jsonOfOptObj : Option JObj → Json
  | some m => .obj m
  | none => .null

/-- routeNotFound, src/blest.go lines 874-876, substituted at line 834
for missing routes: a zero-parameter controller raising the typed
error built by NewBlestError("Not Found", 404, "NOT_FOUND"). -/
def routeNotFound : Step :=
  .ctrl 0 (fun _ ctx => (ctx, none, some (NewBlestError "Not Found" [.vint 404, .vstr "NOT_FOUND"])))

/-- The per-item context of lines 844-851: a copy of the ambient
context enriched with id, route, headers and time. -/
def requestContextOf (context : Ctx) (id route : String) (headers : Option JObj) (now : Int) : Ctx :=
  insertO (insertO (insertO (insertO context "id" (.str id)) "route" (.str route))
    "headers" (jsonOfOptObj headers)) "time" (.num now)

/-- Lines 825-860 for one already-parsed item: route lookup, timeout
resolution, reducer invocation, collection of every tuple the reducer
emits. -/
def runItem (routes : List (String × Route)) (context : Ctx) (now : Int)
    (fireAt : Option Nat) (id route : String) (body headers : Option JObj) : List Tup :=
  let pair : List Step × Int :=
    match lookupO routes route with
    | some rt => (rt.Handler, if 0 < rt.Timeout then rt.Timeout else 0)
    | none => ([routeNotFound], 0)
  routeReducer pair.1 ⟨id, route, jsonOfOptObj body, jsonOfOptObj headers⟩
    (requestContextOf context id route headers now) pair.2 fireAt

inductive HandleResult where
  | hpanic
  | failure (code : Int) (message : String)
  | success (results : List Tup)
  deriving DecidableEq, Repr

/-- The tuples contributed by the batch item at index i, empty when the
item fails its shape checks. -/
def itemTuplesAt (routes : List (String × Route)) (context : Ctx) (sched : Nat → Option Nat)
    (now : Int) (i : Nat) (item : List Json) : List Tup :=
  match parseItem item with
  | .pok id route body headers => runItem routes context now (sched i) id route body headers
  | _ => []

/-- The item loop of handleRequest, lines 789-861, carrying the set of
ids seen so far and the accumulated results. -/
def handleLoop (routes : List (String × Route)) (context : Ctx) (sched : Nat → Option Nat)
    (now : Int) : Nat → List (List Json) → List String → List Tup → HandleResult
  | _, [], _, acc => .success acc
  | i, item :: rest, seen, acc =>
    match parseItem item with
    | .ppanic => .hpanic
    | .perr m => .failure 400 m
    | .pok id route body headers =>
      if id ∈ seen then .failure 400 "Request items should have unique IDs"
      else handleLoop routes context sched now (i + 1) rest (id :: seen)
        (acc ++ runItem routes context now (sched i) id route body headers)

/-- handleRequest, src/blest.go lines 779-864. -/
def handleRequest (routes : List (String × Route)) (requests : List (List Json))
    (context : Ctx) (sched : Nat → Option Nat) (now : Int) : HandleResult :=
  if requests.length = 0 then .failure 400 "Request body should be a JSON array"
  else handleLoop routes context sched now 0 requests [] []

/-!
The batching HTTP client, src/blest.go lines 718-777.

Only the argument validation and enqueue step of HttpClient.Request
is in scope for the claims: the body block at lines 723-730 reads
args[0] when len(args) > 0, and the headers block at lines 732-739 is
guarded by the same len(args) > 0 test yet indexes args[1], which
panics for exactly one argument.  The two-valued type assertions
leave the target nil on failure, so the wrong-shape error returns at
lines 727 and 735 are unreachable.  The generated uuid is passed in
as id.
-/

inductive ReqOutcome where
  | errReturn (msg : String)
  | indexPanic
  | enqueued (callTuple : List Json)
  deriving DecidableEq, Repr

/-- A two-valued Go type assertion to map[string]interface: ok plus
the resulting (possibly nil) map. -/
def goAssertMap : GoVal → Bool × Option JObj
  | .vmap m => (true, m)
  | _ => (false, none)

/-- HttpClient.Request argument handling and enqueue,
src/blest.go lines 718-747. -/
def clientRequest (route : String) (args : List GoVal) (id : String) : ReqOutcome :=
  if route = "" then .errReturn "Route is required"
  else
    let bodyAssert : Bool × Option JObj :=
      match args.get? 0 with
      | some a0 => goAssertMap a0
      | none => (true, none)
    if 0 < args.length && (!bodyAssert.1 && bodyAssert.2.isSome) then
      .errReturn "Body should be a map"
    else
      if 0 < args.length then
        match args.get? 1 with
        | none => .indexPanic
        | some a1 =>
          let headersAssert := goAssertMap a1
          if !headersAssert.1 && headersAssert.2.isSome then
            .errReturn "Headers should be a map"
          else
            .enqueued [.str id, .str route, jsonOfOptObj bodyAssert.2, jsonOfOptObj headersAssert.2]
      else .enqueued [.str id, .str route, jsonOfOptObj bodyAssert.2, .null]

/-!
Deep copy, src/blest.go lines 1041-1068, studied on a heap model.

Context isolation is a statement about aliasing of mutable Go maps and
slices, so for this part the values are modelled with an explicit
heap: a value is a scalar or a reference to a heap cell holding a map
of values or an array of values, and mutation is a write to a heap
address.  deepCopy walks the value, allocating a fresh cell for every
map and slice reached and returning scalars unchanged, exactly as
deepCopy, deepCopyMap and deepCopySlice do; Go recursion has no fuel,
so the model carries a fuel parameter and a run that returns none
corresponds to a copy that does not terminate (a cyclic context).
-/

inductive HVal where
  | hnull
  | hbool (b : Bool)
  | hnum (n : Int)
  | hstr (s : String)
  | href (a : Nat)
  deriving DecidableEq, Repr

inductive HObj where
  | hmap (fields : List (String × HVal))
  | harr (elems : List HVal)
  deriving DecidableEq, Repr

structure Heap where
  mem : List (Nat × HObj)
  next : Nat
  deriving DecidableEq, Repr

def lookupMem : List (Nat × HObj) → Nat → Option HObj
  | [], _ => none
  | (a2, o) :: rest, a => if a2 = a then some o else lookupMem rest a

/-- Heap mutation: replace the object stored at an existing address. -/
def insertMem : List (Nat × HObj) → Nat → HObj → List (Nat × HObj)
  | [], a, o => [(a, o)]
  | (a2, o2) :: rest, a, o => if a2 = a then (a2, o) :: rest else (a2, o2) :: insertMem rest a o

/-- A handler mutating a map or slice it can reach: write object o at
address a. -/
def writeHeap (h : Heap) (a : Nat) (o : HObj) : Heap :=
  { h with mem := insertMem h.mem a o }

/-- Allocation of a fresh cell. -/
def allocHeap (h : Heap) (o : HObj) : Heap × HVal :=
  ({ mem := h.mem ++ [(h.next, o)], next := h.next + 1 }, .href h.next)

mutual

/-- deepCopy, lines 1051-1060. -/
def deepCopyV : Nat → Heap → HVal → Option (Heap × HVal)
  | 0, _, _ => none
  | fuel + 1, h, v =>
    match v with
    | .href a =>
      match lookupMem h.mem a with
      | some (.hmap fields) =>
        match deepCopyFields fuel h fields with
        | some (h2, fields2) => some (allocHeap h2 (.hmap fields2))
        | none => none
      | some (.harr elems) =>
        match deepCopyElems fuel h elems with
        | some (h2, elems2) => some (allocHeap h2 (.harr elems2))
        | none => none
      | none => none
    | _ => some (h, v)
termination_by fuel h v => (fuel, 0)

/-- deepCopyMap, lines 1041-1049: copy every binding in order. -/
def deepCopyFields : Nat → Heap → List (String × HVal) → Option (Heap × List (String × HVal))
  | _, h, [] => some (h, [])
  | fuel, h, (k, v) :: rest =>
    match deepCopyV fuel h v with
    | some (h2, v2) =>
      match deepCopyFields fuel h2 rest with
      | some (h3, rest2) => some (h3, (k, v2) :: rest2)
      | none => none
    | none => none
termination_by fuel h fields => (fuel, fields.length + 1)

/-- deepCopySlice, lines 1062-1068. -/
def deepCopyElems : Nat → Heap → List HVal → Option (Heap × List HVal)
  | _, h, [] => some (h, [])
  | fuel, h, v :: rest =>
    match deepCopyV fuel h v with
    | some (h2, v2) =>
      match deepCopyElems fuel h2 rest with
      | some (h3, rest2) => some (h3, v2 :: rest2)
      | none => none
    | none => none
termination_by fuel h elems => (fuel, elems.length + 1)

end

mutual

/-- Read a heap value back as pure JSON data. -/
def denoteV : Nat → Heap → HVal → Option Json
  | 0, _, _ => none
  | fuel + 1, h, v =>
    match v with
    | .hnull => some .null
    | .hbool b => some (.bool b)
    | .hnum n => some (.num n)
    | .hstr s => some (.str s)
    | .href a =>
      match lookupMem h.mem a with
      | some (.hmap fields) =>
        match denoteFields fuel h fields with
        | some l => some (.obj l)
        | none => none
      | some (.harr elems) =>
        match denoteElems fuel h elems with
        | some l => some (.arr l)
        | none => none
      | none => none
termination_by fuel h v => (fuel, 0)

def denoteFields : Nat → Heap → List (String × HVal) → Option JObj
  | _, _, [] => some []
  | fuel, h, (k, v) :: rest =>
    match denoteV fuel h v with
    | some j =>
      match denoteFields fuel h rest with
      | some l => some ((k, j) :: l)
      | none => none
    | none => none
termination_by fuel h fields => (fuel, fields.length + 1)

def denoteElems : Nat → Heap → List HVal → Option (List Json)
  | _, _, [] => some []
  | fuel, h, v :: rest =>
    match denoteV fuel h v with
    | some j =>
      match denoteElems fuel h rest with
      | some l => some (j :: l)
      | none => none
    | none => none
termination_by fuel h elems => (fuel, elems.length + 1)

end

/-- The values stored directly in a heap object. -/
def HObj.vals : HObj → List HVal
  | .hmap fields => fields.map Prod.snd
  | .harr elems => elems

/-- Heap reachability: the addresses of every map or slice that can be
reached from a value by following references. -/
inductive Reaches (h : Heap) : HVal → Nat → Prop where
  | here (a : Nat) : Reaches h (.href a) a
  | via (a : Nat) (o : HObj) (v : HVal) (b : Nat) :
      lookupMem h.mem a = some o → v ∈ o.vals → Reaches h v b → Reaches h (.href a) b

/-- A value whose reference, if any, lies below n. -/
def valRefsBelow (v : HVal) (n : Nat) : Prop :=
  match v with
  | .href a => a < n
  | _ => True

def objRefsBelow (o : HObj) (n : Nat) : Prop :=
  ∀ v ∈ o.vals, valRefsBelow v n

/-- Heap well-formedness: every stored address and every stored
reference lies below the allocation cursor. -/
def WfHeap (h : Heap) : Prop :=
  (∀ p ∈ h.mem, p.1 < h.next) ∧ (∀ p ∈ h.mem, objRefsBelow p.2 h.next)

instance (v : HVal) (n : Nat) : Decidable (valRefsBelow v n) := by
  unfold valRefsBelow; cases v <;> infer_instance

instance (o : HObj) (n : Nat) : Decidable (objRefsBelow o n) := by
  unfold objRefsBelow; infer_instance

instance (h : Heap) : Decidable (WfHeap h) := by
  unfold WfHeap; infer_instance

theorem getLastI_cons_cons (c d : Char) (l : List Char) :
    (c :: d :: l).getLastI = (d :: l).getLastI := by
  simp [List.getLastI_eq_getLast?, List.getLast?_cons_cons]

theorem routeRegexTail_ne_nil {l : List Char} (h : routeRegexTail l = true) : l ≠ [] := by
  intro he; subst he; simp [routeRegexTail] at h

theorem routeRegexTail_last {l : List Char} (h : routeRegexTail l = true) :
    isLetterOrNumber l.getLastI = true := by
  induction l with
  | nil => simp [routeRegexTail] at h
  | cons c rest ih =>
    cases rest with
    | nil => simpa [routeRegexTail, List.getLastI] using h
    | cons d rest2 =>
      simp only [routeRegexTail, Bool.and_eq_true] at h
      have := ih h.2
      simpa [getLastI_cons_cons] using this

theorem routeRegexMatch_head {l : List Char} (h : routeRegexMatch l = true) :
    isLetter l.headI = true := by
  cases l with
  | nil => simp [routeRegexMatch] at h
  | cons c rest =>
    simp only [routeRegexMatch, Bool.and_eq_true] at h
    simpa [List.headI] using h.1

theorem routeRegexMatch_len {l : List Char} (h : routeRegexMatch l = true) : 2 ≤ l.length := by
  cases l with
  | nil => simp [routeRegexMatch] at h
  | cons c rest =>
    simp only [routeRegexMatch, Bool.and_eq_true] at h
    have := routeRegexTail_ne_nil h.2
    cases rest with
    | nil => exact absurd rfl this
    | cons d rest2 => simp only [List.length_cons]; omega

theorem routeRegexMatch_last {l : List Char} (h : routeRegexMatch l = true) :
    isLetterOrNumber l.getLastI = true := by
  cases l with
  | nil => simp [routeRegexMatch] at h
  | cons c rest =>
    simp only [routeRegexMatch, Bool.and_eq_true] at h
    have h2 := routeRegexTail_last h.2
    have h3 := routeRegexTail_ne_nil h.2
    cases rest with
    | nil => exact absurd rfl h3
    | cons d rest2 => simpa [getLastI_cons_cons] using h2

theorem subRouteCheck_empty_iff (segs : List (List Char)) :
    subRouteCheck segs = "" ↔ ∀ seg ∈ segs, segOk seg = true := by
  induction segs with
  | nil => simp [subRouteCheck]
  | cons seg rest ih =>
    simp only [subRouteCheck, List.mem_cons]
    by_cases h1 : seg.length < 2
    · simp only [if_pos h1]
      constructor
      · intro h; exact absurd h (by decide)
      · intro h
        have := h seg (Or.inl rfl)
        simp [segOk] at this
        omega
    · simp only [if_neg h1]
      by_cases h2 : isLetter seg.headI = true
      · simp only [h2, Bool.not_true, Bool.false_eq_true, if_false]
        by_cases h3 : isLetterOrNumber seg.getLastI = true
        · simp only [h3, Bool.not_true, Bool.false_eq_true, if_false]
          constructor
          · intro h seg2 hm
            rcases hm with rfl | hm
            · simp [segOk, h2, h3]; omega
            · exact (ih.mp h) seg2 hm
          · intro h
            exact ih.mpr (fun seg2 hm => h seg2 (Or.inr hm))
        · simp only [Bool.not_eq_true] at h3
          simp only [h3, Bool.not_false, if_true]
          constructor
          · intro h; exact absurd h (by decide)
          · intro h
            have := h seg (Or.inl rfl)
            simp [segOk, h3] at this
      · simp only [Bool.not_eq_true] at h2
        simp only [h2, Bool.not_false, if_true]
        constructor
        · intro h; exact absurd h (by decide)
        · intro h
          have := h seg (Or.inl rfl)
          simp [segOk, h2] at this

theorem subRouteCheck_cases (segs : List (List Char)) :
    subRouteCheck segs = "" ∨
      subRouteCheck segs ∈ ["Sub-routes should be at least two characters long",
        "Sub-routes should start with a letter",
        "Sub-routes should end with a letter or a number"] := by
  induction segs with
  | nil => left; simp [subRouteCheck]
  | cons seg rest ih =>
    simp only [subRouteCheck]
    split
    · right; simp
    · split
      · right; simp
      · split
        · right; simp
        · exact ih

theorem splitSlash_no_slash {l : List Char} (h : '/' ∉ l) : splitSlash l = [l] := by
  induction l with
  | nil => simp [splitSlash]
  | cons c rest ih =>
    simp only [List.mem_cons, not_or] at h
    have h1 : c ≠ '/' := Ne.symm h.1
    simp [splitSlash, if_neg h1, ih h.2]

/-- C4: for every candidate name, the non-system validateRoute returns the
empty string exactly when the name matches the regular-route regex and
every slash-separated segment is at least two characters long, starts
with a letter and ends with a letter or digit; every rejection returns a
non-empty diagnostic drawn from the fixed set of specific messages. -/
theorem C4_validateRoute_grammar (route : List Char) :
    (validateRoute route false = "" ↔
      (routeRegexMatch route = true ∧ ∀ seg ∈ splitSlash route, segOk seg = true)) ∧
    (validateRoute route false = "" ∨
      (validateRoute route false ≠ "" ∧ validateRoute route false ∈
        ["Route is required",
         "Route should be at least two characters long",
         "Route should start with a letter",
         "Route should end with a letter or a number",
         "Route should contain only letters, numbers, dashes, underscores, and forward slashes",
         "Sub-routes should be at least two characters long",
         "Sub-routes should start with a letter",
         "Sub-routes should end with a letter or a number"])) := by
  by_cases hnil : route = []
  · subst hnil
    refine ⟨?_, ?_⟩
    · constructor
      · intro h; exact absurd h (by decide)
      · intro h; simp [routeRegexMatch] at h
    · right
      refine ⟨by decide, by simp [validateRoute]⟩
  · have hshape : validateRoute route false =
        (if !routeRegexMatch route then
          (if route.length < 2 then "Route should be at least two characters long"
           else if !isLetter route.headI then "Route should start with a letter"
           else if !isLetterOrNumber route.getLastI then "Route should end with a letter or a number"
           else "Route should contain only letters, numbers, dashes, underscores, and forward slashes")
         else if '/' ∈ route then subRouteCheck (splitSlash route)
         else "") := by
      simp [validateRoute, if_neg hnil]
    by_cases hm : routeRegexMatch route = true
    · rw [hm] at hshape
      simp only [Bool.not_true, Bool.false_eq_true, if_false] at hshape
      by_cases hs : '/' ∈ route
      · rw [if_pos hs] at hshape
        rw [hshape]
        refine ⟨?_, ?_⟩
        · rw [subRouteCheck_empty_iff]
          exact ⟨fun h => ⟨hm, h⟩, fun h => h.2⟩
        · rcases subRouteCheck_cases (splitSlash route) with h | h
          · exact Or.inl h
          · right
            refine ⟨?_, ?_⟩
            · simp only [List.mem_cons, List.not_mem_nil, or_false] at h
              rcases h with h | h | h <;> rw [h] <;> decide
            · simp only [List.mem_cons, List.not_mem_nil, or_false] at h ⊢
              tauto
      · rw [if_neg hs] at hshape
        rw [hshape]
        refine ⟨?_, Or.inl rfl⟩
        constructor
        · intro _
          refine ⟨hm, ?_⟩
          rw [splitSlash_no_slash hs]
          intro seg hseg
          simp only [List.mem_singleton] at hseg
          subst hseg
          have h1 := routeRegexMatch_len hm
          have h2 := routeRegexMatch_head hm
          have h3 := routeRegexMatch_last hm
          simp [segOk, h1, h2, h3]
        · intro _; rfl
    · simp only [Bool.not_eq_true] at hm
      rw [hm] at hshape
      simp only [Bool.not_false, if_true] at hshape
      have hne : validateRoute route false ≠ "" := by
        rw [hshape]
        split
        · decide
        · split
          · decide
          · split
            · decide
            · decide
      refine ⟨?_, ?_⟩
      · constructor
        · intro h; exact absurd h hne
        · intro h; rw [h.1] at hm; exact absurd hm (by decide)
      · right
        refine ⟨hne, ?_⟩
        rw [hshape]
        split
        · simp
        · split
          · simp
          · split
            · simp
            · simp

/-- C10: filterObject is not total over JSON-like inputs: it panics
(modelled as none) when a selector pair targets a key holding a sequence
with a non-object element, when the first element of a pair is not a
string, and when the second element of a pair is not a sequence while a
matching object value forces it to be read. -/
theorem C10_filterObject_partial :
    filterObject [("k", .arr [.num 5])] [.arr [.str "k", .arr [.str "a"]]] = none ∧
    filterObject [("k", .obj [("a", .num 1)])] [.arr [.num 7, .arr [.str "a"]]] = none ∧
    filterObject [("k", .obj [("a", .num 1)])] [.arr [.str "k", .num 7]] = none := by
  refine ⟨?_, ?_, ?_⟩ <;> simp [filterObject, filterFold, filterStep, filterList, lookupO]

/-- C9: HttpClient.Request rejects an empty route, but a call passing a
well-shaped body and no headers argument panics on the args[1] index
instead of enqueueing the call tuple, and a wrong-shaped body is
silently replaced by nil instead of producing an error return. -/
theorem C9_clientRequest_bug :
    clientRequest "" [] "id0" = .errReturn "Route is required" ∧
    clientRequest "hello" [.vmap (some [("a", .num 1)])] "id0" = .indexPanic ∧
    clientRequest "hello" [.vstr "oops", .vnil] "id0" =
      .enqueued [.str "id0", .str "hello", .null, .null] :=
  ⟨rfl, rfl, rfl⟩

/-- C1: routeReducer emits two result tuples for a single batch item when
the controller returns the non-object 42 — the 500 shape-error tuple and
then a second tuple carrying the non-object result — because the default
branch at line 990 is not followed by a return before the send at line
992; this refutes the exactly-one-tuple contract. -/
theorem C1_routeReducer_double_emit :
    routeReducer [.ctrl 2 (fun _ ctx => (ctx, some (.num 42), none))]
      ⟨"id1", "ab", .null, .null⟩ [] 0 none =
      [⟨"id1", "ab", .null, errJson "The result, if any, should be a JSON object" 500⟩,
       ⟨"id1", "ab", .num 42, .null⟩] ∧
    (routeReducer [.ctrl 2 (fun _ ctx => (ctx, some (.num 42), none))]
      ⟨"id1", "ab", .null, .null⟩ [] 0 none).length ≠ 1 :=
  ⟨rfl, by decide⟩

def c2Routes : List (String × Route) :=
  [("ab", { Handler := [.ctrl 2 (fun _ ctx => (ctx, some (.num 42), none))]
            Description := ""
            Schema := .null
            Visible := false
            Validate := false
            Timeout := 0 })]

/-- C2 counterexample: a shape-valid one-item batch addressed to a route
whose controller returns a non-object yields a two-tuple response, so
the response length differs from the batch length and the tuple at
index 1 does not correspond to any request item. -/
theorem C2_counterexample :
    handleRequest c2Routes [[.str "a", .str "ab"]] [] (fun _ => none) 0 =
      .success [⟨"a", "ab", .null, errJson "The result, if any, should be a JSON object" 500⟩,
                ⟨"a", "ab", .num 42, .null⟩] ∧
    ([⟨"a", "ab", .null, errJson "The result, if any, should be a JSON object" 500⟩,
      ⟨"a", "ab", .num 42, .null⟩] : List Tup).length ≠ [[Json.str "a", Json.str "ab"]].length :=
  ⟨rfl, by decide⟩

/-- C3 counterexample: a batch whose only item carries the route 0x,
which violates the section 4.1 grammar, is not rejected with a batch
error: handleRequest performs no grammar check and answers with the
per-item 404 tuple. -/
theorem C3_counterexample :
    handleRequest [] [[.str "a", .str "0x"]] [] (fun _ => none) 0 =
      .success [⟨"a", "0x", .null, errJson "Not Found" 404⟩] ∧
    validateRoute "0x".toList false ≠ "" :=
  ⟨rfl, by decide⟩

/-- C6 counterexample: the 404 tuple for a missing route carries an error
object holding only message and statusCode: no code field appears,
since NewBlestError reads its code argument only when more than two
variadic arguments are present and the reducer builds the error map
from message and statusCode alone. -/
theorem C6_counterexample :
    handleRequest [] [[.str "b", .str "cd"]] [] (fun _ => none) 0 =
      .success [⟨"b", "cd", .null, .obj [("message", .str "Not Found"), ("statusCode", .num 404)]⟩] ∧
    lookupO [("message", Json.str "Not Found"), ("statusCode", Json.num 404)] "code" = none ∧
    NewBlestError "Not Found" [.vint 404, .vstr "NOT_FOUND"] = .blest ⟨"Not Found", 404, ""⟩ :=
  ⟨rfl, rfl, rfl⟩

def c5Child : Router :=
  { Middleware := []
    Afterware := []
    Timeout := 0
    Routes := [("ab", { Handler := [.unsupported 0], Description := "child", Schema := .null,
                        Visible := true, Validate := false, Timeout := 5 })] }

def c5Parent : Router :=
  { Middleware := []
    Afterware := []
    Timeout := 7
    Routes := [("ns/ab", { Handler := [.unsupported 1], Description := "parent", Schema := .null,
                           Visible := false, Validate := false, Timeout := 3 })] }

/-- C5 counterexample: namespacing the child under ns rewrites its only
route to ns/ab, which collides with an existing route of that very
name, yet Namespace reports no error and silently overwrites the
existing entry: the collision check at line 366 reads the original
un-prefixed name. -/
theorem C5_counterexample :
    (Namespace c5Parent "ns" c5Child).2 = none ∧
    lookupO (Namespace c5Parent "ns" c5Child).1.Routes "ns/ab" =
      some { Handler := [Step.unsupported 0], Description := "child", Schema := .null,
             Visible := true, Validate := false, Timeout := 5 } ∧
    lookupO c5Parent.Routes "ns/ab" =
      some { Handler := [Step.unsupported 1], Description := "parent", Schema := .null,
             Visible := false, Validate := false, Timeout := 3 } :=
  ⟨rfl, rfl, rfl⟩

/-- Every tuple the reducer emits carries the id and route of its own
request object. -/
theorem routeReducer_id_route {handler : List Step} {req : RequestObject} {ctx : Ctx}
    {timeout : Int} {fireAt : Option Nat} {t : Tup}
    (ht : t ∈ routeReducer handler req ctx timeout fireAt) :
    t.id = req.ID ∧ t.route = req.Route := by
  simp only [routeReducer] at ht
  split at ht
  · simp only [List.mem_singleton] at ht; subst ht; exact ⟨rfl, rfl⟩
  · split at ht
    · simp only [List.mem_singleton] at ht; subst ht; exact ⟨rfl, rfl⟩
    · split at ht
      · split at ht
        · simp only [List.mem_singleton] at ht; subst ht; exact ⟨rfl, rfl⟩
        · simp only [List.mem_cons, List.not_mem_nil, or_false] at ht
          rcases ht with rfl | rfl <;> exact ⟨rfl, rfl⟩
      · simp only [List.mem_singleton] at ht; subst ht; exact ⟨rfl, rfl⟩

/-- The per-index tuple lists of a batch suffix starting at index i. -/
def itemsTuples (routes : List (String × Route)) (context : Ctx) (sched : Nat → Option Nat)
    (now : Int) : Nat → List (List Json) → List (List Tup)
  | _, [] => []
  | i, item :: rest =>
    itemTuplesAt routes context sched now i item ::
      itemsTuples routes context sched now (i + 1) rest

theorem itemsTuples_length (routes : List (String × Route)) (context : Ctx)
    (sched : Nat → Option Nat) (now : Int) :
    ∀ (items : List (List Json)) (i : Nat),
      (itemsTuples routes context sched now i items).length = items.length := by
  intro items
  induction items with
  | nil => intro i; simp [itemsTuples]
  | cons item rest ih => intro i; simp [itemsTuples, ih]

theorem itemsTuples_getq (routes : List (String × Route)) (context : Ctx)
    (sched : Nat → Option Nat) (now : Int) :
    ∀ (items : List (List Json)) (i j : Nat), j < items.length →
      (itemsTuples routes context sched now i items).get? j =
        some (itemTuplesAt routes context sched now (i + j) (items.getD j [])) := by
  intro items
  induction items with
  | nil => intro i j h; simp at h
  | cons item rest ih =>
    intro i j h
    cases j with
    | zero => simp [itemsTuples]
    | succ j2 =>
      simp only [itemsTuples, List.get?_cons_succ, List.getD_cons_succ]
      have := ih (i + 1) j2 (by simpa using Nat.lt_of_succ_lt_succ h)
      rw [this]
      congr 2
      omega

/-- When the item loop succeeds, the result list is the accumulator
followed by the per-item tuple lists in batch order. -/
theorem handleLoop_success (routes : List (String × Route)) (context : Ctx)
    (sched : Nat → Option Nat) (now : Int) :
    ∀ (items : List (List Json)) (i : Nat) (seen : List String) (acc : List Tup) (rs : List Tup),
      handleLoop routes context sched now i items seen acc = .success rs →
      rs = acc ++ (itemsTuples routes context sched now i items).join := by
  intro items
  induction items with
  | nil =>
    intro i seen acc rs h
    simp only [handleLoop] at h
    cases h
    simp [itemsTuples]
  | cons item rest ih =>
    intro i seen acc rs h
    simp only [handleLoop] at h
    split at h
    · cases h
    · cases h
    · rename_i id route body headers hp
      split at h
      · cases h
      · have h2 := ih (i + 1) _ _ _ h
        rw [h2]
        simp [itemsTuples, itemTuplesAt, hp, List.append_assoc]

theorem join_singleton_getq {α : Type} (ls : List (List α)) (h : ∀ l ∈ ls, l.length = 1) :
    ls.join.length = ls.length ∧ ∀ i : Nat, ls.join.get? i = (ls.getD i []).head? := by
  induction ls with
  | nil => refine ⟨by simp, ?_⟩; intro i; cases i <;> simp
  | cons l rest ih =>
    have hl : l.length = 1 := h l (by simp)
    obtain ⟨x, rfl⟩ := List.length_eq_one.mp hl
    have ih2 := ih (fun l2 hm => h l2 (by simp [hm]))
    refine ⟨by simp [ih2.1], ?_⟩
    intro i
    cases i with
    | zero => simp
    | succ j => simpa using ih2.2 j

/-- The id found at position 0 of a request item, as the shape checks
read it. -/
def idOfItem (item : List Json) : String :=
  match item.head? with
  | some (.str s) => s
  | _ => ""

theorem parseItem_pok_head {item : List Json} {id route : String} {body headers : Option JObj}
    (h : parseItem item = .pok id route body headers) : item.head? = some (.str id) := by
  unfold parseItem at h
  repeat' split at h
  all_goals cases h
  all_goals rfl

/-- C2 amended: whenever handleRequest succeeds and every batch item
contributes exactly one result tuple (a condition a controller
returning a non-object, non-nil result violates), the response has the
same length as the request batch and the tuple at every index carries
the id at position 0 of the request item at that index. -/
theorem C2_order_preservation (routes : List (String × Route)) (requests : List (List Json))
    (context : Ctx) (sched : Nat → Option Nat) (now : Int) (rs : List Tup)
    (hs : handleRequest routes requests context sched now = .success rs)
    (h1 : ∀ i, i < requests.length →
      (itemTuplesAt routes context sched now i (requests.getD i [])).length = 1) :
    rs.length = requests.length ∧
    ∀ i, i < requests.length →
      (rs.get? i).map Tup.id = some (idOfItem (requests.getD i [])) := by
  unfold handleRequest at hs
  split at hs
  · cases hs
  · have hdec := handleLoop_success routes context sched now requests 0 [] [] rs hs
    simp only [List.nil_append] at hdec
    subst hdec
    have hlen := itemsTuples_length routes context sched now requests 0
    have hmem : ∀ l ∈ itemsTuples routes context sched now 0 requests, l.length = 1 := by
      intro l hm
      obtain ⟨j, hj⟩ := List.mem_iff_get?.mp hm
      have hjlt : j < requests.length := by
        by_contra hge
        rw [List.get?_eq_none.mpr (by omega)] at hj
        cases hj
      rw [itemsTuples_getq routes context sched now requests 0 j hjlt] at hj
      cases hj
      simpa using h1 j hjlt
    have hj := join_singleton_getq _ hmem
    refine ⟨by rw [hj.1, hlen], ?_⟩
    intro i hi
    rw [hj.2 i]
    have hgd : (itemsTuples routes context sched now 0 requests).getD i [] =
        itemTuplesAt routes context sched now i (requests.getD i []) := by
      rw [List.getD_eq_get?, itemsTuples_getq routes context sched now requests 0 i hi]
      simp
    rw [hgd]
    have h1i := h1 i hi
    rcases hone : itemTuplesAt routes context sched now i (requests.getD i []) with _ | ⟨t, rest⟩
    · rw [hone] at h1i; cases h1i
    · rw [hone] at h1i
      have hrest : rest = [] := by
        simp only [List.length_cons] at h1i
        exact List.length_eq_zero.mp (by omega)
      subst hrest
      show some t.id = some (idOfItem (requests.getD i []))
      have htm : t ∈ itemTuplesAt routes context sched now i (requests.getD i []) := by
        rw [hone]; simp
      unfold itemTuplesAt at htm
      split at htm
      · rename_i id route body headers hp
        have hid := (routeReducer_id_route (by simpa [runItem] using htm)).1
        simp only [hid]
        rw [idOfItem, parseItem_pok_head hp]
      · cases htm

/-- C6 amended: in a successful batch in which every item contributes one
tuple, the tuple at every index is computed from that item alone, and
an item whose route is absent from the registry receives the tuple
with null result and error object carrying exactly message Not Found
and statusCode 404 (the code field is not propagated into the tuple). -/
theorem C6_not_found_tuple (routes : List (String × Route)) (requests : List (List Json))
    (context : Ctx) (sched : Nat → Option Nat) (now : Int) (rs : List Tup)
    (j : Nat) (id route : String) (body headers : Option JObj)
    (hs : handleRequest routes requests context sched now = .success rs)
    (h1 : ∀ i, i < requests.length →
      (itemTuplesAt routes context sched now i (requests.getD i [])).length = 1)
    (hj : j < requests.length)
    (hp : parseItem (requests.getD j []) = .pok id route body headers)
    (hmiss : lookupO routes route = none) :
    rs.get? j = some ⟨id, route, .null, .obj [("message", .str "Not Found"), ("statusCode", .num 404)]⟩ ∧
    ∀ i, i < requests.length →
      rs.get? i = (itemTuplesAt routes context sched now i (requests.getD i [])).head? := by
  unfold handleRequest at hs
  split at hs
  · cases hs
  · have hdec := handleLoop_success routes context sched now requests 0 [] [] rs hs
    simp only [List.nil_append] at hdec
    subst hdec
    have hmem : ∀ l ∈ itemsTuples routes context sched now 0 requests, l.length = 1 := by
      intro l hm
      obtain ⟨j2, hj2⟩ := List.mem_iff_get?.mp hm
      have hjlt : j2 < requests.length := by
        by_contra hge
        rw [List.get?_eq_none.mpr (by
          rw [itemsTuples_length routes context sched now requests 0]; omega)] at hj2
        cases hj2
      rw [itemsTuples_getq routes context sched now requests 0 j2 hjlt] at hj2
      cases hj2
      simpa using h1 j2 hjlt
    have hjoin := join_singleton_getq _ hmem
    have hidx : ∀ i, i < requests.length →
        (itemsTuples routes context sched now 0 requests).join.get? i =
          (itemTuplesAt routes context sched now i (requests.getD i [])).head? := by
      intro i hi
      rw [hjoin.2 i, List.getD_eq_get?, itemsTuples_getq routes context sched now requests 0 i hi]
      simp
    refine ⟨?_, hidx⟩
    rw [hidx j hj]
    simp only [itemTuplesAt, hp, runItem, hmiss]
    simp [routeReducer, routeNotFound, runSteps, Step.arity, NewBlestError,
      GoErr.errorText, errStatusCode, errJson, List.enum]

/-!
Amended batch-shape classification for C3, stated from the amended
claim: the handler aborts the batch with a 400 error exactly when the
batch is empty or the in-order scan meets an item without a non-empty
string id, an item without a non-empty string route in position 1, or
a duplicate id — no route-grammar check is performed — and it panics
when an item is empty or stops after a valid id (position 1 missing).
-/

inductive BatchCheck where
  | ok
  | panics
  | reject (msg : String)
  deriving DecidableEq, Repr

/-- The shape scan exactly as the amended claim words it. -/
def batchShapeCheck (seen : List String) : List (List Json) → BatchCheck
  | [] => .ok
  | item :: rest =>
    match item.head? with
    | some (.str id) =>
      if id = "" then .reject "Request item should have an ID"
      else
        match item.get? 1 with
        | some (.str route) =>
          if route = "" then .reject "Request item should have a route"
          else if id ∈ seen then .reject "Request items should have unique IDs"
          else batchShapeCheck (id :: seen) rest
        | some _ => .reject "Request item should have a route"
        | none => .panics
    | some _ => .reject "Request item should have an ID"
    | none => .panics

def batchShapeSpec (requests : List (List Json)) : BatchCheck :=
  if requests.length = 0 then .reject "Request body should be a JSON array"
  else batchShapeCheck [] requests

/-- Bridge between the shape scan and the per-item parse of the code. -/
theorem batchShapeCheck_cons (seen : List String) (item : List Json) (rest : List (List Json)) :
    batchShapeCheck seen (item :: rest) =
      match parseItem item with
      | .ppanic => .panics
      | .perr m => .reject m
      | .pok id _ _ _ =>
        if id ∈ seen then .reject "Request items should have unique IDs"
        else batchShapeCheck (id :: seen) rest := by
  cases item with
  | nil => rfl
  | cons first rest2 =>
    cases first <;> simp only [batchShapeCheck, parseItem, List.head?_cons] <;> try rfl
    rename_i s
    by_cases hs : s = ""
    · simp [hs]
    · simp only [if_neg hs]
      rcases hg : (Json.str s :: rest2).get? 1 with _ | second
      · rfl
      · cases second <;> simp only [hg] <;> try rfl
        rename_i route
        by_cases hr : route = ""
        · simp [hr]
        · simp [if_neg hr]

theorem handleLoop_class (routes : List (String × Route)) (context : Ctx)
    (sched : Nat → Option Nat) (now : Int) :
    ∀ (items : List (List Json)) (i : Nat) (seen : List String) (acc : List Tup),
      (∀ c m, handleLoop routes context sched now i items seen acc = .failure c m ↔
        (c = 400 ∧ batchShapeCheck seen items = .reject m)) ∧
      (handleLoop routes context sched now i items seen acc = .hpanic ↔
        batchShapeCheck seen items = .panics) := by
  intro items
  induction items with
  | nil =>
    intro i seen acc
    constructor
    · intro c m
      simp [handleLoop, batchShapeCheck]
    · simp [handleLoop, batchShapeCheck]
  | cons item rest ih =>
    intro i seen acc
    rw [batchShapeCheck_cons]
    simp only [handleLoop]
    cases hp : parseItem item with
    | perr m =>
      refine ⟨fun c m2 => ?_, ?_⟩
      · show HandleResult.failure 400 m = .failure c m2 ↔ c = 400 ∧ BatchCheck.reject m = .reject m2
        constructor
        · intro h; cases h; exact ⟨rfl, rfl⟩
        · rintro ⟨rfl, h⟩; cases h; rfl
      · show HandleResult.failure 400 m = .hpanic ↔ BatchCheck.reject m = .panics
        constructor
        · intro h; cases h
        · intro h; cases h
    | ppanic =>
      refine ⟨fun c m2 => ?_, ?_⟩
      · show HandleResult.hpanic = .failure c m2 ↔ c = 400 ∧ BatchCheck.panics = .reject m2
        constructor
        · intro h; cases h
        · rintro ⟨rfl, h⟩; cases h
      · show HandleResult.hpanic = .hpanic ↔ BatchCheck.panics = .panics
        simp
    | pok id route body headers =>
      show (∀ (c : Int) (m : String),
          (if id ∈ seen then HandleResult.failure 400 "Request items should have unique IDs"
           else handleLoop routes context sched now (i + 1) rest (id :: seen)
             (acc ++ runItem routes context now (sched i) id route body headers)) = .failure c m ↔
          (c = 400 ∧ (if id ∈ seen then BatchCheck.reject "Request items should have unique IDs"
           else batchShapeCheck (id :: seen) rest) = .reject m)) ∧
        ((if id ∈ seen then HandleResult.failure 400 "Request items should have unique IDs"
          else handleLoop routes context sched now (i + 1) rest (id :: seen)
            (acc ++ runItem routes context now (sched i) id route body headers)) = .hpanic ↔
         (if id ∈ seen then BatchCheck.reject "Request items should have unique IDs"
          else batchShapeCheck (id :: seen) rest) = .panics)
      by_cases hmem : id ∈ seen
      · simp only [if_pos hmem]
        refine ⟨fun c m2 => ?_, ?_⟩
        · constructor
          · intro h; cases h; exact ⟨rfl, rfl⟩
          · rintro ⟨rfl, h⟩; cases h; rfl
        · constructor
          · intro h; cases h
          · intro h; cases h
      · simp only [if_neg hmem]
        exact ih (i + 1) (id :: seen)
          (acc ++ runItem routes context now (sched i) id route body headers)

/-- C3 amended: handleRequest returns the single batch-level 400 error
exactly when the amended shape scan rejects — the batch is empty, an
item lacks a non-empty string id, an item lacks a non-empty string
route in position 1, or two items share an id; no route-grammar check
occurs — and it panics exactly when the scan meets an empty item or an
item ending after its id.  A 400 outcome carries no per-item tuples
and the outcome is independent of the registry, the ambient context,
the schedules and the clock. -/
theorem C3_batch_shape (routes : List (String × Route)) (requests : List (List Json))
    (context : Ctx) (sched : Nat → Option Nat) (now : Int) :
    (∀ c m, handleRequest routes requests context sched now = .failure c m ↔
      (c = 400 ∧ batchShapeSpec requests = .reject m)) ∧
    (handleRequest routes requests context sched now = .hpanic ↔
      batchShapeSpec requests = .panics) := by
  unfold handleRequest batchShapeSpec
  by_cases hlen : requests.length = 0
  · simp only [if_pos hlen]
    constructor
    · intro c m
      constructor
      · intro h; cases h; exact ⟨rfl, rfl⟩
      · rintro ⟨rfl, h⟩; cases h; rfl
    · constructor
      · intro h; cases h
      · intro h; cases h
  · simp only [if_neg hlen]
    exact handleLoop_class routes context sched now requests 0 [] []

theorem lookupO_insertO_self {α : Type} (m : List (String × α)) (k : String) (v : α) :
    lookupO (insertO m k v) k = some v := by
  induction m with
  | nil => simp [insertO, lookupO]
  | cons p rest ih =>
    obtain ⟨k2, w⟩ := p
    by_cases h : k2 = k
    · simp [insertO, lookupO, h]
    · simp [insertO, lookupO, h, ih]

theorem lookupO_insertO_ne {α : Type} (m : List (String × α)) (k k2 : String) (v : α)
    (h : k2 ≠ k) : lookupO (insertO m k2 v) k = lookupO m k := by
  induction m with
  | nil => simp [insertO, lookupO, h]
  | cons p rest ih =>
    obtain ⟨k3, w⟩ := p
    by_cases h3 : k3 = k2
    · subst h3
      simp [insertO, lookupO, h]
    · simp only [insertO, if_neg h3]
      by_cases h4 : k3 = k
      · simp [lookupO, h4]
      · simp [lookupO, h4, ih]

/-- The registry produced by a collision-free merge, as the claim words
it: every child route inserted with pipeline middleware ++ handler ++
afterware and the timeout rule. -/
def mergedRoutes (mw aw : List Step) (tmo : Int) :
    List (String × Route) → List (String × Route) → List (String × Route)
  | acc, [] => acc
  | acc, (name, rt) :: rest =>
    mergedRoutes mw aw tmo
      (insertO acc name ⟨mw ++ rt.Handler ++ aw, rt.Description, rt.Schema, rt.Visible,
        rt.Validate, if 0 < rt.Timeout then rt.Timeout else tmo⟩) rest

/-- The registry produced by a collision-free namespace import: same as
a merge but each key is rewritten with the validated name in front. -/
def namespacedRoutes (pfx : String) (mw aw : List Step) (tmo : Int) :
    List (String × Route) → List (String × Route) → List (String × Route)
  | acc, [] => acc
  | acc, (name, rt) :: rest =>
    namespacedRoutes pfx mw aw tmo
      (insertO acc (pfx ++ "/" ++ name) ⟨mw ++ rt.Handler ++ aw, rt.Description, rt.Schema,
        rt.Visible, rt.Validate, if 0 < rt.Timeout then rt.Timeout else tmo⟩) rest

theorem mergeLoop_no_collision (existing : List String) :
    ∀ (child : List (String × Route)) (r : Router),
      (∀ p ∈ child, contains existing p.1 = false) →
      mergeLoop existing r child =
        ({ Middleware := r.Middleware, Afterware := r.Afterware, Timeout := r.Timeout,
           Routes := mergedRoutes r.Middleware r.Afterware r.Timeout r.Routes child }, none) := by
  intro child
  induction child with
  | nil => intro r h; rfl
  | cons p rest ih =>
    intro r h
    obtain ⟨name, rt⟩ := p
    have hc : contains existing name = false := h (name, rt) (by simp)
    simp only [mergeLoop, hc, Bool.false_eq_true, if_false]
    exact ih _ (fun q hq => h q (by simp [hq]))

theorem mergeLoop_collision (existing : List String) :
    ∀ (child : List (String × Route)) (r : Router),
      (∃ p ∈ child, contains existing p.1 = true) →
      (mergeLoop existing r child).2.isSome := by
  intro child
  induction child with
  | nil => intro r h; simp at h
  | cons p rest ih =>
    intro r h
    obtain ⟨name, rt⟩ := p
    by_cases hc : contains existing name = true
    · simp [mergeLoop, hc]
    · simp only [mergeLoop, hc, Bool.false_eq_true, if_false]
      apply ih
      rcases h with ⟨q, hq, hqc⟩
      rcases List.mem_cons.mp hq with rfl | hq2
      · exact absurd hqc hc
      · exact ⟨q, hq2, hqc⟩

theorem namespaceLoop_no_collision (pfx : String) (existing : List String) :
    ∀ (child : List (String × Route)) (r : Router),
      (∀ p ∈ child, contains existing p.1 = false) →
      namespaceLoop pfx existing r child =
        ({ Middleware := r.Middleware, Afterware := r.Afterware, Timeout := r.Timeout,
           Routes := namespacedRoutes pfx r.Middleware r.Afterware r.Timeout r.Routes child },
         none) := by
  intro child
  induction child with
  | nil => intro r h; rfl
  | cons p rest ih =>
    intro r h
    obtain ⟨name, rt⟩ := p
    have hc : contains existing name = false := h (name, rt) (by simp)
    simp only [namespaceLoop, hc, Bool.false_eq_true, if_false]
    exact ih _ (fun q hq => h q (by simp [hq]))

theorem namespaceLoop_collision (pfx : String) (existing : List String) :
    ∀ (child : List (String × Route)) (r : Router),
      (∃ p ∈ child, contains existing p.1 = true) →
      (namespaceLoop pfx existing r child).2.isSome := by
  intro child
  induction child with
  | nil => intro r h; simp at h
  | cons p rest ih =>
    intro r h
    obtain ⟨name, rt⟩ := p
    by_cases hc : contains existing name = true
    · simp [namespaceLoop, hc]
    · simp only [namespaceLoop, hc, Bool.false_eq_true, if_false]
      apply ih
      rcases h with ⟨q, hq, hqc⟩
      rcases List.mem_cons.mp hq with rfl | hq2
      · exact absurd hqc hc
      · exact ⟨q, hq2, hqc⟩

theorem strAppendCancel (s : String) {a b : String} (h : s ++ a = s ++ b) : a = b := by
  have hd := congrArg String.data h
  simp only [String.data_append] at hd
  have hd2 := List.append_cancel_left hd
  cases a; cases b
  cases hd2
  rfl

theorem lookup_mergedRoutes_absent (mw aw : List Step) (tmo : Int) :
    ∀ (child : List (String × Route)) (acc : List (String × Route)) (k : String),
      k ∉ child.map Prod.fst →
      lookupO (mergedRoutes mw aw tmo acc child) k = lookupO acc k := by
  intro child
  induction child with
  | nil => intro acc k h; rfl
  | cons p rest ih =>
    intro acc k h
    obtain ⟨name, rt⟩ := p
    simp only [List.map_cons, List.mem_cons, not_or] at h
    simp only [mergedRoutes]
    rw [ih _ _ h.2, lookupO_insertO_ne _ _ _ _ (fun he => h.1 he.symm)]

theorem lookup_mergedRoutes_mem (mw aw : List Step) (tmo : Int) :
    ∀ (child : List (String × Route)) (acc : List (String × Route)) (name : String) (rt : Route),
      (child.map Prod.fst).Nodup → (name, rt) ∈ child →
      lookupO (mergedRoutes mw aw tmo acc child) name =
        some ⟨mw ++ rt.Handler ++ aw, rt.Description, rt.Schema, rt.Visible, rt.Validate,
          if 0 < rt.Timeout then rt.Timeout else tmo⟩ := by
  intro child
  induction child with
  | nil => intro acc name rt hnd hm; simp at hm
  | cons p rest ih =>
    intro acc name rt hnd hm
    obtain ⟨name2, rt2⟩ := p
    simp only [List.map_cons, List.nodup_cons] at hnd
    rcases List.mem_cons.mp hm with heq | hm2
    · cases heq
      simp only [mergedRoutes]
      rw [lookup_mergedRoutes_absent mw aw tmo rest _ _ hnd.1, lookupO_insertO_self]
    · simp only [mergedRoutes]
      exact ih _ _ _ hnd.2 hm2

theorem lookup_namespacedRoutes_absent (pfx : String) (mw aw : List Step) (tmo : Int) :
    ∀ (child : List (String × Route)) (acc : List (String × Route)) (k : String),
      (∀ name ∈ child.map Prod.fst, pfx ++ "/" ++ name ≠ k) →
      lookupO (namespacedRoutes pfx mw aw tmo acc child) k = lookupO acc k := by
  intro child
  induction child with
  | nil => intro acc k h; rfl
  | cons p rest ih =>
    intro acc k h
    obtain ⟨name, rt⟩ := p
    simp only [namespacedRoutes]
    rw [ih _ _ (fun n hn => h n (by simp [hn])),
      lookupO_insertO_ne _ _ _ _ (h name (by simp))]

theorem lookup_namespacedRoutes_mem (pfx : String) (mw aw : List Step) (tmo : Int) :
    ∀ (child : List (String × Route)) (acc : List (String × Route)) (name : String) (rt : Route),
      (child.map Prod.fst).Nodup → (name, rt) ∈ child →
      lookupO (namespacedRoutes pfx mw aw tmo acc child) (pfx ++ "/" ++ name) =
        some ⟨mw ++ rt.Handler ++ aw, rt.Description, rt.Schema, rt.Visible, rt.Validate,
          if 0 < rt.Timeout then rt.Timeout else tmo⟩ := by
  intro child
  induction child with
  | nil => intro acc name rt hnd hm; simp at hm
  | cons p rest ih =>
    intro acc name rt hnd hm
    obtain ⟨name2, rt2⟩ := p
    simp only [List.map_cons, List.nodup_cons] at hnd
    rcases List.mem_cons.mp hm with heq | hm2
    · cases heq
      simp only [namespacedRoutes]
      rw [lookup_namespacedRoutes_absent pfx mw aw tmo rest _ _ ?_, lookupO_insertO_self]
      intro n hn he
      have := strAppendCancel (pfx ++ "/") (by simpa [String.append_assoc] using he)
      exact hnd.1 (this ▸ hn)
    · simp only [namespacedRoutes]
      exact ih _ _ _ hnd.2 hm2

/-- C5 amended: Merge imports every route of the argument router with
composed pipeline self middleware ++ child handler ++ self afterware
and with the child timeout when positive, else the importing default,
rejecting when a child name collides with an existing route name;
Namespace behaves the same with every imported name rewritten by
prepending the validated name and a slash, except that collisions are
judged on the original un-rewritten child name, so a collision of the
rewritten name alone is not detected and silently overwrites. -/
theorem C5_merge_namespace (r other : Router) (pfx : String)
    (hne : other.Routes ≠ [])
    (hnd : (other.Routes.map Prod.fst).Nodup)
    (hfree : ∀ p ∈ other.Routes, contains (r.Routes.map Prod.fst) p.1 = false)
    (hpfx : validateRoute pfx.toList false = "") :
    (Merge r other).2 = none ∧
    (∀ p ∈ other.Routes, lookupO (Merge r other).1.Routes p.1 = some (composeRoute r p.2)) ∧
    (Namespace r pfx other).2 = none ∧
    (∀ p ∈ other.Routes,
      lookupO (Namespace r pfx other).1.Routes (pfx ++ "/" ++ p.1) =
        some (composeRoute r p.2)) ∧
    (∀ (r2 other2 : Router),
      (∃ p ∈ other2.Routes, contains (r2.Routes.map Prod.fst) p.1 = true) →
      (Merge r2 other2).2.isSome ∧ (Namespace r2 pfx other2).2.isSome) := by
  have hlen : ¬ other.Routes.length = 0 := by
    intro h; exact hne (List.length_eq_zero.mp h)
  have hmerge : Merge r other =
      ({ Middleware := r.Middleware, Afterware := r.Afterware, Timeout := r.Timeout,
         Routes := mergedRoutes r.Middleware r.Afterware r.Timeout r.Routes other.Routes },
       none) := by
    simp only [Merge, if_neg hlen]
    exact mergeLoop_no_collision _ other.Routes r hfree
  have hns : Namespace r pfx other =
      ({ Middleware := r.Middleware, Afterware := r.Afterware, Timeout := r.Timeout,
         Routes := namespacedRoutes pfx r.Middleware r.Afterware r.Timeout r.Routes
           other.Routes }, none) := by
    simp only [Namespace, hpfx, ne_eq, not_true_eq_false, if_false, if_neg hlen]
    exact namespaceLoop_no_collision pfx _ other.Routes r hfree
  refine ⟨by rw [hmerge], ?_, by rw [hns], ?_, ?_⟩
  · intro p hp
    obtain ⟨name, rt⟩ := p
    rw [hmerge]
    exact lookup_mergedRoutes_mem _ _ _ other.Routes r.Routes name rt hnd hp
  · intro p hp
    obtain ⟨name, rt⟩ := p
    rw [hns]
    exact lookup_namespacedRoutes_mem pfx _ _ _ other.Routes r.Routes name rt hnd hp
  · intro r2 other2 hcol
    have hne2 : ¬ other2.Routes.length = 0 := by
      rcases hcol with ⟨p, hp, _⟩
      intro h
      rw [List.length_eq_zero.mp h] at hp
      simp at hp
    constructor
    · simp only [Merge, if_neg hne2]
      exact mergeLoop_collision _ other2.Routes r2 hcol
    · simp only [Namespace, hpfx, ne_eq, not_true_eq_false, if_false, if_neg hne2]
      exact namespaceLoop_collision pfx _ other2.Routes r2 hcol

def c2wRoutes : List (String × Route) :=
  [("ok", { Handler := [.ctrl 2 (fun _ ctx => (ctx, some (.obj [("r", .num 1)]), none))]
            Description := ""
            Schema := .null
            Visible := false
            Validate := false
            Timeout := 0 })]

def c2wReqs : List (List Json) := [[.str "a", .str "ok"], [.str "b", .str "missing"]]

def c2wRs : List Tup :=
  [⟨"a", "ok", .obj [("r", .num 1)], .null⟩,
   ⟨"b", "missing", .null, .obj [("message", .str "Not Found"), ("statusCode", .num 404)]⟩]

/-- Witness for C2: a concrete two-item batch on which the hypotheses of
the order-preservation theorem hold. -/
theorem C2_order_preservation_witness :
    c2wRs.length = c2wReqs.length ∧
    ∀ i, i < c2wReqs.length →
      (c2wRs.get? i).map Tup.id = some (idOfItem (c2wReqs.getD i [])) :=
  C2_order_preservation c2wRoutes c2wReqs [] (fun _ => none) 0 c2wRs rfl (by decide)

def c6wRoutes : List (String × Route) :=
  [("ok", { Handler := [.ctrl 2 (fun _ ctx => (ctx, some (.obj [("r", .num 2)]), none))]
            Description := ""
            Schema := .null
            Visible := false
            Validate := false
            Timeout := 0 })]

def c6wReqs : List (List Json) := [[.str "a", .str "ok"], [.str "b", .str "nope"]]

def c6wRs : List Tup :=
  [⟨"a", "ok", .obj [("r", .num 2)], .null⟩,
   ⟨"b", "nope", .null, .obj [("message", .str "Not Found"), ("statusCode", .num 404)]⟩]

/-- Witness for C6: a concrete batch whose second item addresses a
missing route. -/
theorem C6_not_found_tuple_witness :
    c6wRs.get? 1 = some ⟨"b", "nope", .null,
      .obj [("message", .str "Not Found"), ("statusCode", .num 404)]⟩ ∧
    ∀ i, i < c6wReqs.length →
      c6wRs.get? i = (itemTuplesAt c6wRoutes [] (fun _ => none) 0 i (c6wReqs.getD i [])).head? :=
  C6_not_found_tuple c6wRoutes c6wReqs [] (fun _ => none) 0 c6wRs 1 "b" "nope" none none
    rfl (by decide) (by decide) rfl rfl

def c5wParent : Router :=
  { Middleware := [.mw 2 (fun _ ctx => ctx)]
    Afterware := [.aft (fun _ ctx _ => ctx)]
    Timeout := 9
    Routes := [("zz", { Handler := [.unsupported 2], Description := "", Schema := .null,
                        Visible := false, Validate := false, Timeout := 1 })] }

def c5wChild : Router :=
  { Middleware := []
    Afterware := []
    Timeout := 4
    Routes := [("ab", { Handler := [.unsupported 0], Description := "a", Schema := .null,
                        Visible := true, Validate := false, Timeout := 5 }),
               ("cd", { Handler := [.unsupported 1], Description := "c", Schema := .null,
                        Visible := false, Validate := true, Timeout := 0 })] }

/-- Witness for C5: concrete collision-free routers and the validated
name ns. -/
theorem C5_merge_namespace_witness :
    (Merge c5wParent c5wChild).2 = none ∧
    (∀ p ∈ c5wChild.Routes,
      lookupO (Merge c5wParent c5wChild).1.Routes p.1 = some (composeRoute c5wParent p.2)) ∧
    (Namespace c5wParent "ns" c5wChild).2 = none ∧
    (∀ p ∈ c5wChild.Routes,
      lookupO (Namespace c5wParent "ns" c5wChild).1.Routes ("ns" ++ "/" ++ p.1) =
        some (composeRoute c5wParent p.2)) ∧
    (∀ (r2 other2 : Router),
      (∃ p ∈ other2.Routes, contains (r2.Routes.map Prod.fst) p.1 = true) →
      (Merge r2 other2).2.isSome ∧ (Namespace r2 "ns" other2).2.isSome) :=
  C5_merge_namespace c5wParent c5wChild "ns" (List.cons_ne_nil _ _) (by decide) (by decide)
    (by decide)

/-!
Idempotence of the selector projection (C7).

Go maps are unordered, so equality of projection results is equality
of the JSON values the association lists denote: Jeqv below relates
arrays pointwise and objects by key set and pointwise-equivalent
lookups.  Filtrate y x says y is a type-preserving filtered version of
x: every key of an object y appears in x with a filtrate as value, and
every element of an array y is a filtrate of some element of x; the
projection always produces a filtrate of its input, which drives the
proof that entries that wrote nothing on the first pass write nothing
on the second.
-/

inductive Jeqv : Json → Json → Prop where
  | null : Jeqv .null .null
  | bool (b : Bool) : Jeqv (.bool b) (.bool b)
  | num (n : Int) : Jeqv (.num n) (.num n)
  | str (s : String) : Jeqv (.str s) (.str s)
  | arr {xs ys : List Json} : List.Forall₂ Jeqv xs ys → Jeqv (.arr xs) (.arr ys)
  | obj {a b : JObj} :
      (∀ k, (lookupO a k).isSome = (lookupO b k).isSome) →
      (∀ k v w, lookupO a k = some v → lookupO b k = some w → Jeqv v w) →
      Jeqv (.obj a) (.obj b)

/-- Object-level equivalence: same key set, equivalent values. -/
def ObjEqv (a b : JObj) : Prop :=
  (∀ k, (lookupO a k).isSome = (lookupO b k).isSome) ∧
  (∀ k v w, lookupO a k = some v → lookupO b k = some w → Jeqv v w)

theorem Jeqv.objIntro {a b : JObj} (h : ObjEqv a b) : Jeqv (.obj a) (.obj b) :=
  Jeqv.obj h.1 h.2

mutual

inductive Filtrate : Json → Json → Prop where
  | null : Filtrate .null .null
  | bool (b : Bool) : Filtrate (.bool b) (.bool b)
  | num (n : Int) : Filtrate (.num n) (.num n)
  | str (s : String) : Filtrate (.str s) (.str s)
  | arr {ys xs : List Json} : FiltrateList ys xs → Filtrate (.arr ys) (.arr xs)
  | obj {b a : JObj} :
      (∀ k v, lookupO b k = some v → (lookupO a k).isSome) →
      (∀ k v w, lookupO b k = some v → lookupO a k = some w → Filtrate v w) →
      Filtrate (.obj b) (.obj a)

/-- Every element of the first list is a filtrate of some element of the
second. -/
inductive FiltrateList : List Json → List Json → Prop where
  | nil (xs : List Json) : FiltrateList [] xs
  | cons {y : Json} {ys xs : List Json} (x : Json) :
      x ∈ xs → Filtrate y x → FiltrateList ys xs → FiltrateList (y :: ys) xs

end

/-- Object-level filtrate: keys of b occur in a and the looked-up values
are filtrates. -/
def ObjFiltrate (b a : JObj) : Prop :=
  (∀ k v, lookupO b k = some v → (lookupO a k).isSome) ∧
  (∀ k v w, lookupO b k = some v → lookupO a k = some w → Filtrate v w)

theorem Filtrate.objOfParts {b a : JObj} (h : ObjFiltrate b a) : Filtrate (.obj b) (.obj a) :=
  Filtrate.obj h.1 h.2

theorem lookupO_mem {α : Type} {m : List (String × α)} {k : String} {v : α}
    (h : lookupO m k = some v) : (k, v) ∈ m := by
  induction m with
  | nil => simp [lookupO] at h
  | cons p rest ih =>
    obtain ⟨k2, w⟩ := p
    by_cases he : k2 = k
    · subst he
      simp only [lookupO, if_pos rfl] at h
      cases h
      simp
    · simp only [lookupO, if_neg he] at h
      simp [ih h]

theorem sizeOf_lookupO {m : JObj} {k : String} {v : Json}
    (h : lookupO m k = some v) : sizeOf v < sizeOf m := by
  have hm := lookupO_mem h
  have h1 := List.sizeOf_lt_of_mem hm
  have h2 : sizeOf v < sizeOf (k, v) := by
    simp only [Prod.mk.sizeOf_spec]
    omega
  omega

mutual

theorem Jeqv_refl : ∀ (j : Json), Jeqv j j
  | .null => .null
  | .bool b => .bool b
  | .num n => .num n
  | .str s => .str s
  | .arr xs => .arr (Jeqv_refl_all xs)
  | .obj a => .obj (fun _ => rfl)
      (fun k v w h1 h2 => by
        rw [h1] at h2
        cases h2
        exact Jeqv_refl v)
termination_by j => (sizeOf j, 0)
decreasing_by
  all_goals apply Prod.Lex.left
  · simp only [Json.arr.sizeOf_spec]
    omega
  · have := sizeOf_lookupO h1
    simp only [Json.obj.sizeOf_spec]
    omega

theorem Jeqv_refl_all : ∀ (xs : List Json), List.Forall₂ Jeqv xs xs
  | [] => List.Forall₂.nil
  | x :: rest => List.Forall₂.cons (Jeqv_refl x) (Jeqv_refl_all rest)
termination_by xs => (sizeOf xs, 1)
decreasing_by
  all_goals apply Prod.Lex.left
  all_goals simp only [List.cons.sizeOf_spec]
  · omega
  · have : 0 < sizeOf x := by cases x <;> simp <;> omega
    omega

end

mutual

theorem Filtrate_refl : ∀ (j : Json), Filtrate j j
  | .null => .null
  | .bool b => .bool b
  | .num n => .num n
  | .str s => .str s
  | .arr xs => .arr (FiltrateList_of_sub xs xs (fun _ hy => hy))
  | .obj a => .obj (fun k v h1 => by rw [h1]; rfl)
      (fun k v w h1 h2 => by
        rw [h1] at h2
        cases h2
        exact Filtrate_refl v)
termination_by j => (sizeOf j, 0)
decreasing_by
  all_goals apply Prod.Lex.left
  · simp only [Json.arr.sizeOf_spec]
    omega
  · have := sizeOf_lookupO h1
    simp only [Json.obj.sizeOf_spec]
    omega

theorem FiltrateList_of_sub : ∀ (ys xs : List Json), (∀ y ∈ ys, y ∈ xs) → FiltrateList ys xs
  | [], xs => fun _ => .nil xs
  | y :: rest, xs => fun h =>
    .cons y (h y (by simp)) (Filtrate_refl y)
      (FiltrateList_of_sub rest xs (fun z hz => h z (by simp [hz])))
termination_by ys xs => (sizeOf ys, 1)
decreasing_by
  all_goals apply Prod.Lex.left
  all_goals simp only [List.cons.sizeOf_spec]
  · have : 0 < sizeOf rest := by cases rest <;> simp <;> omega
    omega
  · have : 0 < sizeOf y := by cases y <;> simp <;> omega
    omega

end

theorem lookupO_isSome_of_ne_nil {m : JObj} (h : m ≠ []) :
    ∃ k, (lookupO m k).isSome := by
  cases m with
  | nil => exact absurd rfl h
  | cons p rest => exact ⟨p.1, by simp [lookupO]⟩

theorem ne_nil_of_lookupO_isSome {m : JObj} {k : String} (h : (lookupO m k).isSome) :
    m ≠ [] := by
  intro he
  subst he
  simp [lookupO] at h

theorem filterFold_defined_steps {obj : JObj} :
    ∀ {arr : List Json} {acc out : JObj}, filterFold obj arr acc = some out →
      ∀ e ∈ arr, filterStep obj e ≠ none := by
  intro arr
  induction arr with
  | nil => intro acc out h e he; simp at he
  | cons e2 rest ih =>
    intro acc out h e he
    rw [filterFold] at h
    rcases he2 : filterStep obj e2 with _ | a
    · rw [he2] at h; cases h
    · rcases List.mem_cons.mp he with rfl | hr
      · rw [he2]; intro hc; cases hc
      · rw [he2] at h
        cases a with
        | none => exact ih h e hr
        | some p => exact ih h e hr

theorem filterFold_of_steps {obj : JObj} :
    ∀ (arr : List Json) (acc : JObj), (∀ e ∈ arr, filterStep obj e ≠ none) →
      ∃ out, filterFold obj arr acc = some out := by
  intro arr
  induction arr with
  | nil => intro acc h; exact ⟨acc, by rw [filterFold]⟩
  | cons e rest ih =>
    intro acc h
    rcases he : filterStep obj e with _ | a
    · exact absurd he (h e (by simp))
    · cases a with
      | none =>
        obtain ⟨out, hout⟩ := ih acc (fun e2 he2 => h e2 (by simp [he2]))
        exact ⟨out, by rw [filterFold, he]; exact hout⟩
      | some p =>
        obtain ⟨out, hout⟩ := ih (insertO acc p.1 p.2) (fun e2 he2 => h e2 (by simp [he2]))
        exact ⟨out, by rw [filterFold, he]; exact hout⟩

/-- The value written for key k by the last selector entry that writes
k, reading the source object obj. -/
def findWrite (obj : JObj) : List Json → String → Option Json
  | [], _ => none
  | e :: rest, k =>
    match findWrite obj rest k with
    | some v => some v
    | none =>
      match filterStep obj e with
      | some (some (k2, v)) => if k2 = k then some v else none
      | _ => none

theorem filterFold_lookup {obj : JObj} :
    ∀ (arr : List Json) (acc out : JObj), filterFold obj arr acc = some out →
      ∀ k, lookupO out k =
        (match findWrite obj arr k with
         | some v => some v
         | none => lookupO acc k) := by
  intro arr
  induction arr with
  | nil =>
    intro acc out h k
    rw [filterFold] at h
    cases h
    rfl
  | cons e rest ih =>
    intro acc out h k
    rw [filterFold] at h
    rcases he : filterStep obj e with _ | a
    · rw [he] at h; cases h
    · rw [he] at h
      cases a with
      | none =>
        have := ih acc out h k
        rw [this, findWrite, he]
        rcases findWrite obj rest k with _ | w <;> rfl
      | some p =>
        obtain ⟨k2, v⟩ := p
        have := ih (insertO acc k2 v) out h k
        rw [this, findWrite, he]
        rcases findWrite obj rest k with _ | w
        · by_cases hk : k2 = k
          · subst hk
            simp [lookupO_insertO_self]
          · simp only [if_neg hk]
            rw [lookupO_insertO_ne _ _ _ _ hk]
        · rfl

theorem findWrite_some_entry {obj : JObj} :
    ∀ {arr : List Json} {k : String} {v : Json}, findWrite obj arr k = some v →
      ∃ e ∈ arr, filterStep obj e = some (some (k, v)) := by
  intro arr
  induction arr with
  | nil => intro k v h; cases h
  | cons e rest ih =>
    intro k v h
    rw [findWrite] at h
    rcases hr : findWrite obj rest k with _ | w
    · rcases he : filterStep obj e with _ | a
      · simp [hr, he] at h
      · cases a with
        | none => simp [hr, he] at h
        | some p =>
          obtain ⟨k2, v2⟩ := p
          simp only [hr, he] at h
          by_cases hk : k2 = k
          · subst hk
            rw [if_pos rfl] at h
            cases h
            exact ⟨e, by simp, he⟩
          · rw [if_neg hk] at h; cases h
    · simp only [hr] at h
      cases h
      obtain ⟨e2, he2, hs⟩ := ih hr
      exact ⟨e2, by simp [he2], hs⟩

theorem findWrite_isSome_of_entry {obj : JObj} :
    ∀ {arr : List Json} {k : String} {e : Json}, e ∈ arr →
      (∃ v, filterStep obj e = some (some (k, v))) → (findWrite obj arr k).isSome := by
  intro arr
  induction arr with
  | nil => intro k e he; simp at he
  | cons e2 rest ih =>
    intro k e he hv
    rw [findWrite]
    rcases hr : findWrite obj rest k with _ | w
    · rcases List.mem_cons.mp he with rfl | hrm
      · obtain ⟨v, hs⟩ := hv
        simp [hr, hs]
      · have := ih hrm hv
        rw [hr] at this
        cases this
    · simp [hr]

theorem filterStep_write {obj : JObj} {e : Json} {k : String} {v : Json}
    (h : filterStep obj e = some (some (k, v))) :
    (e = .str k ∧ lookupO obj k = some v) ∨
    (∃ lrest xs ys, e = .arr (.str k :: lrest) ∧ lookupO obj k = some (.arr xs) ∧
      filterList lrest.head? xs = some ys ∧ 0 < ys.length ∧ v = .arr ys) ∨
    (∃ lrest2 sl m fm, e = .arr (.str k :: .arr sl :: lrest2) ∧
      lookupO obj k = some (.obj m) ∧ filterObject m sl = some fm ∧ 0 < fm.length ∧
      v = .obj fm) := by
  cases e with
  | str k2 =>
    rw [filterStep] at h
    rcases hl : lookupO obj k2 with _ | w
    · simp [hl] at h
    · simp only [hl] at h
      cases h
      exact Or.inl ⟨rfl, hl⟩
  | arr l =>
    cases l with
    | nil => rw [filterStep] at h; cases h
    | cons k0 lrest =>
      cases k0 with
      | str ks =>
        rw [filterStep] at h
        rcases hl : lookupO obj ks with _ | w
        · simp [hl] at h
        · cases w with
          | arr xs =>
            rcases hfl : filterList lrest.head? xs with _ | ys
            · simp [hl, hfl] at h
            · simp only [hl, hfl] at h
              by_cases hys : 0 < ys.length
              · rw [if_pos hys] at h
                cases h
                exact Or.inr (Or.inl ⟨lrest, xs, ys, rfl, hl, hfl, hys, rfl⟩)
              · rw [if_neg hys] at h; cases h
          | obj m =>
            simp only [hl] at h
            cases lrest with
            | nil => cases h
            | cons sub0 lrest2 =>
              cases sub0 with
              | arr sl =>
                rcases hfo : filterObject m sl with _ | fm
                · simp only [hfo] at h; cases h
                · simp only [hfo] at h
                  by_cases hfm : 0 < fm.length
                  · rw [if_pos hfm] at h
                    cases h
                    exact Or.inr (Or.inr ⟨lrest2, sl, m, fm, rfl, hl, hfo, hfm, rfl⟩)
                  · rw [if_neg hfm] at h; cases h
              | null => cases h
              | bool b => cases h
              | num n => cases h
              | str s => cases h
              | obj m2 => cases h
          | null => simp [hl] at h
          | bool b => simp [hl] at h
          | num n => simp [hl] at h
          | str s => simp [hl] at h
      | null => simp [filterStep] at h
      | bool b => simp [filterStep] at h
      | num n => simp [filterStep] at h
      | arr l2 => simp [filterStep] at h
      | obj m2 => simp [filterStep] at h
  | null => simp [filterStep] at h
  | bool b => simp [filterStep] at h
  | num n => simp [filterStep] at h
  | obj m => simp [filterStep] at h

theorem Filtrate.obj_inv {b a : JObj} (h : Filtrate (.obj b) (.obj a)) : ObjFiltrate b a := by
  cases h with
  | obj h1 h2 => exact ⟨h1, h2⟩

theorem Filtrate.arr_inv {ys xs : List Json} (h : Filtrate (.arr ys) (.arr xs)) :
    FiltrateList ys xs := by
  cases h with
  | arr h1 => exact h1

theorem FiltrateList.cons_inv {y : Json} {ys xs : List Json} (h : FiltrateList (y :: ys) xs) :
    (∃ x ∈ xs, Filtrate y x) ∧ FiltrateList ys xs := by
  cases h with
  | cons x hx hf hrest => exact ⟨⟨x, hx, hf⟩, hrest⟩

theorem FiltrateList_weaken {xs : List Json} (x0 : Json) :
    ∀ {ys : List Json}, FiltrateList ys xs → FiltrateList ys (x0 :: xs) := by
  intro ys
  induction ys with
  | nil => intro _; exact .nil _
  | cons y rest ih =>
    intro h
    obtain ⟨⟨x, hx, hf⟩, hrest⟩ := FiltrateList.cons_inv h
    exact .cons x (by simp [hx]) hf (ih hrest)

theorem sizeOf_sl_lt {arr : List Json} {e k0v : Json} {lrest sl : List Json}
    (he : e ∈ arr) (hee : e = .arr (k0v :: lrest)) (hh : lrest.head? = some (.arr sl)) :
    sizeOf sl < sizeOf arr := by
  subst hee
  have h1 := List.sizeOf_lt_of_mem he
  have h2 := List.sizeOf_lt_of_mem (mem_of_headq_eq hh)
  simp only [Json.arr.sizeOf_spec, List.cons.sizeOf_spec] at h1 h2 ⊢
  omega

theorem sizeOf_sl_lt2 {arr : List Json} {e k0v : Json} {lrest2 sl : List Json}
    (he : e ∈ arr) (hee : e = .arr (k0v :: .arr sl :: lrest2)) : sizeOf sl < sizeOf arr := by
  subst hee
  have h1 := List.sizeOf_lt_of_mem he
  simp only [Json.arr.sizeOf_spec, List.cons.sizeOf_spec] at h1 ⊢
  omega

theorem filterList_elems_obj {sub : Option Json} :
    ∀ {xs ys : List Json}, filterList sub xs = some ys → ∀ x ∈ xs, ∃ m, x = .obj m := by
  intro xs
  induction xs with
  | nil => intro ys h x hx; simp at hx
  | cons x0 rest ih =>
    intro ys h x hx
    rw [filterList.eq_def] at h
    cases x0 with
    | obj m =>
      rcases List.mem_cons.mp hx with rfl | hr
      · exact ⟨m, rfl⟩
      · rcases sub with _ | s
        · cases h
        · cases s with
          | arr sl =>
            rcases hfo : filterObject m sl with _ | fm
            · simp only [hfo] at h; cases h
            · simp only [hfo] at h
              rcases hfl : filterList (some (.arr sl)) rest with _ | ys2
              · simp only [hfl] at h; cases h
              · exact ih hfl x hr
          | null => cases h
          | bool b => cases h
          | num n => cases h
          | str s2 => cases h
          | obj m2 => cases h
    | null => cases h
    | bool b => cases h
    | num n => cases h
    | str s => cases h
    | arr l => cases h

theorem filterList_sub_shape {sub : Option Json} {xs ys : List Json}
    (h : filterList sub xs = some ys) (hne : xs ≠ []) : ∃ sl, sub = some (.arr sl) := by
  cases xs with
  | nil => exact absurd rfl hne
  | cons x0 rest =>
    rw [filterList.eq_def] at h
    cases x0 with
    | obj m =>
      rcases sub with _ | s
      · cases h
      · cases s with
        | arr sl => exact ⟨sl, rfl⟩
        | null => cases h
        | bool b => cases h
        | num n => cases h
        | str s2 => cases h
        | obj m2 => cases h
    | null => cases h
    | bool b => cases h
    | num n => cases h
    | str s => cases h
    | arr l => cases h

theorem filterList_elem_defined {sl : List Json} :
    ∀ {xs ys : List Json} {m : JObj}, filterList (some (.arr sl)) xs = some ys →
      (Json.obj m) ∈ xs → ∃ fm, filterObject m sl = some fm := by
  intro xs
  induction xs with
  | nil => intro ys m h hm; simp at hm
  | cons x0 rest ih =>
    intro ys m h hm
    rw [filterList.eq_def] at h
    cases x0 with
    | obj m0 =>
      rcases hfo : filterObject m0 sl with _ | fm0
      · simp only [hfo] at h; cases h
      · simp only [hfo] at h
        rcases hfl : filterList (some (.arr sl)) rest with _ | ys2
        · simp only [hfl] at h; cases h
        · rcases List.mem_cons.mp hm with heq | hr
          · cases heq
            exact ⟨fm0, hfo⟩
          · exact ih hfl hr
    | null => cases h
    | bool b => cases h
    | num n => cases h
    | str s => cases h
    | arr l => cases h

theorem filterList_nonempty {sl : List Json} :
    ∀ {xs ys : List Json} {m fm : JObj}, filterList (some (.arr sl)) xs = some ys →
      (Json.obj m) ∈ xs → filterObject m sl = some fm → 0 < fm.length → 0 < ys.length := by
  intro xs
  induction xs with
  | nil => intro ys m fm h hm; simp at hm
  | cons x0 rest ih =>
    intro ys m fm h hm hfo hfm
    rw [filterList.eq_def] at h
    cases x0 with
    | obj m0 =>
      rcases hfo0 : filterObject m0 sl with _ | fm0
      · simp only [hfo0] at h; cases h
      · simp only [hfo0] at h
        rcases hfl : filterList (some (.arr sl)) rest with _ | ys2
        · simp only [hfl] at h; cases h
        · simp only [hfl] at h
          cases h
          rcases List.mem_cons.mp hm with heq | hr
          · cases heq
            rw [hfo0] at hfo
            cases hfo
            rw [if_pos hfm]
            simp
          · have := ih hfl hr hfo hfm
            by_cases hk : 0 < fm0.length
            · rw [if_pos hk]; simp
            · rw [if_neg hk]; exact this
    | null => cases h
    | bool b => cases h
    | num n => cases h
    | str s => cases h
    | arr l => cases h

theorem filterList_shape {sl : List Json} :
    ∀ {xs ys : List Json}, filterList (some (.arr sl)) xs = some ys →
      ∀ y ∈ ys, ∃ m fm, (Json.obj m) ∈ xs ∧ filterObject m sl = some fm ∧
        0 < fm.length ∧ y = .obj fm := by
  intro xs
  induction xs with
  | nil =>
    intro ys h y hy
    rw [filterList.eq_def] at h
    cases h
    simp at hy
  | cons x0 rest ih =>
    intro ys h y hy
    rw [filterList.eq_def] at h
    cases x0 with
    | obj m0 =>
      rcases hfo : filterObject m0 sl with _ | fm0
      · simp only [hfo] at h; cases h
      · simp only [hfo] at h
        rcases hfl : filterList (some (.arr sl)) rest with _ | ys2
        · simp only [hfl] at h; cases h
        · simp only [hfl] at h
          cases h
          by_cases hk : 0 < fm0.length
          · rw [if_pos hk] at hy
            rcases List.mem_cons.mp hy with rfl | hr
            · exact ⟨m0, fm0, by simp, hfo, hk, rfl⟩
            · obtain ⟨m, fm, hm, h1, h2, h3⟩ := ih hfl y hr
              exact ⟨m, fm, by simp [hm], h1, h2, h3⟩
          · rw [if_neg hk] at hy
            obtain ⟨m, fm, hm, h1, h2, h3⟩ := ih hfl y hy
            exact ⟨m, fm, by simp [hm], h1, h2, h3⟩
    | null => cases h
    | bool b => cases h
    | num n => cases h
    | str s => cases h
    | arr l => cases h

theorem filterObject_unfold (obj : JObj) (arr : List Json) :
    filterObject obj arr = filterFold obj arr [] := by
  rw [filterObject.eq_def]

theorem filterList_nil_eq (sub : Option Json) : filterList sub [] = some [] := by
  rw [filterList.eq_def]

theorem filterList_filtrate_aux (sl : List Json)
    (IH : ∀ (m out : JObj), filterObject m sl = some out → ObjFiltrate out m) :
    ∀ (xs ys : List Json), filterList (some (.arr sl)) xs = some ys → FiltrateList ys xs := by
  intro xs
  induction xs with
  | nil =>
    intro ys h
    rw [filterList_nil_eq] at h
    cases h
    exact .nil _
  | cons x0 rest ih =>
    intro ys h
    rw [filterList.eq_def] at h
    cases x0 with
    | obj m0 =>
      rcases hfo : filterObject m0 sl with _ | fm
      · simp only [hfo] at h; cases h
      · simp only [hfo] at h
        rcases hfl : filterList (some (.arr sl)) rest with _ | ys2
        · simp only [hfl] at h; cases h
        · simp only [hfl] at h
          cases h
          have hrest := FiltrateList_weaken (Json.obj m0) (ih ys2 hfl)
          by_cases hk : 0 < fm.length
          · rw [if_pos hk]
            exact .cons (Json.obj m0) (by simp) (Filtrate.objOfParts (IH m0 fm hfo)) hrest
          · rw [if_neg hk]
            exact hrest
    | null => cases h
    | bool b => cases h
    | num n2 => cases h
    | str s => cases h
    | arr l => cases h

/-- The projection result is a filtrate of its input. -/
theorem filterObject_filtrate : ∀ (n : Nat) (arr : List Json), sizeOf arr ≤ n →
    ∀ (x out : JObj), filterObject x arr = some out → ObjFiltrate out x := by
  intro n
  induction n with
  | zero =>
    intro arr hsz
    exfalso
    have : 0 < sizeOf arr := by cases arr <;> simp <;> omega
    omega
  | succ n ih =>
    intro arr hsz x out hfo
    have key : ∀ k v, lookupO out k = some v → ∃ w, lookupO x k = some w ∧ Filtrate v w := by
      intro k v hlk
      rw [filterObject_unfold] at hfo
      have hlkf := filterFold_lookup arr [] out hfo k
      rw [hlk] at hlkf
      rcases hw : findWrite x arr k with _ | w0
      · rw [hw] at hlkf
        simp [lookupO] at hlkf
      · rw [hw] at hlkf
        cases hlkf
        obtain ⟨e, he, hstep⟩ := findWrite_some_entry hw
        rcases filterStep_write hstep with ⟨rfl, hl⟩ |
          ⟨lrest, xs, ys, rfl, hl, hfl, hys, rfl⟩ |
          ⟨lrest2, sl, m, fm, rfl, hl, hfo2, hfm, rfl⟩
        · exact ⟨v, hl, Filtrate_refl v⟩
        · have hxs : xs ≠ [] := by
            intro hxe
            subst hxe
            rw [filterList_nil_eq] at hfl
            cases hfl
            simp at hys
          obtain ⟨sl, hsl⟩ := filterList_sub_shape hfl hxs
          rw [hsl] at hfl
          have hszsl := sizeOf_sl_lt he rfl hsl
          have IH2 : ∀ (m out2 : JObj), filterObject m sl = some out2 → ObjFiltrate out2 m :=
            fun m out2 h2 => ih sl (by omega) m out2 h2
          exact ⟨.arr xs, hl, .arr (filterList_filtrate_aux sl IH2 xs ys hfl)⟩
        · have hszsl := sizeOf_sl_lt2 he rfl
          exact ⟨.obj m, hl, Filtrate.objOfParts (ih sl (by omega) m fm hfo2)⟩
    refine ⟨fun k v hv => ?_, fun k v w hv hw => ?_⟩
    · obtain ⟨w, hw, _⟩ := key k v hv
      rw [hw]
      rfl
    · obtain ⟨w2, hw2, hf⟩ := key k v hv
      rw [hw2] at hw
      cases hw
      exact hf

theorem filterObject_filtrate_top {arr : List Json} {x out : JObj}
    (h : filterObject x arr = some out) : ObjFiltrate out x :=
  filterObject_filtrate (sizeOf arr) arr le_rfl x out h

theorem sizeOf_sl_in_e {ks : String} {lrest sl : List Json} (hh : lrest.head? = some (.arr sl)) :
    sizeOf sl < sizeOf (Json.arr (Json.str ks :: lrest)) := by
  have h2 := List.sizeOf_lt_of_mem (mem_of_headq_eq hh)
  simp only [Json.arr.sizeOf_spec, Json.str.sizeOf_spec, List.cons.sizeOf_spec] at h2 ⊢
  omega

theorem sizeOf_sl_in_e2 {ks : String} {lrest2 sl : List Json} :
    sizeOf sl < sizeOf (Json.arr (Json.str ks :: Json.arr sl :: lrest2)) := by
  simp only [Json.arr.sizeOf_spec, Json.str.sizeOf_spec, List.cons.sizeOf_spec]
  omega

theorem filterList_mono_aux (sl : List Json)
    (IHsl : ∀ (m my out : JObj), ObjFiltrate my m → filterObject m sl = some out →
      ∃ outy, filterObject my sl = some outy ∧
        ∀ k, (lookupO outy k).isSome = true → (lookupO out k).isSome = true) :
    ∀ (ys0 xs ysx : List Json), FiltrateList ys0 xs →
      filterList (some (.arr sl)) xs = some ysx →
      ∃ ysy, filterList (some (.arr sl)) ys0 = some ysy ∧
        (0 < ysy.length → 0 < ysx.length) := by
  intro ys0
  induction ys0 with
  | nil => intro xs ysx hflt hx; exact ⟨[], filterList_nil_eq _, by simp⟩
  | cons y rest ih =>
    intro xs ysx hflt hx
    obtain ⟨⟨x0, hx0, hf⟩, hrest⟩ := FiltrateList.cons_inv hflt
    obtain ⟨m, rfl⟩ := filterList_elems_obj hx x0 hx0
    cases hf with
    | obj h1 h2 =>
      rename_i my
      obtain ⟨fmx, hfmx⟩ := filterList_elem_defined hx hx0
      obtain ⟨fmy, hfmy, hkeys⟩ := IHsl m my fmx ⟨h1, h2⟩ hfmx
      obtain ⟨ysy2, hysy2, himp⟩ := ih xs ysx hrest hx
      refine ⟨if 0 < fmy.length then .obj fmy :: ysy2 else ysy2, ?_, ?_⟩
      · rw [filterList.eq_def]
        simp only [hfmy, hysy2]
      · intro hne
        by_cases hk : 0 < fmy.length
        · have hne2 : fmy ≠ [] := by
            intro he
            subst he
            simp at hk
          obtain ⟨k0, hk0⟩ := lookupO_isSome_of_ne_nil hne2
          have h3 := hkeys k0 hk0
          have h4 := ne_nil_of_lookupO_isSome h3
          exact filterList_nonempty hx hx0 hfmx (List.length_pos.mpr h4)
        · rw [if_neg hk] at hne
          exact himp hne

theorem filterStep_mono_aux (n : Nat) {x y : JObj} {e : Json} (hsz : sizeOf e ≤ n)
    (hfil : ObjFiltrate y x)
    (IH : ∀ (sl : List Json), sizeOf sl < n → ∀ (m my out : JObj), ObjFiltrate my m →
      filterObject m sl = some out →
      ∃ outy, filterObject my sl = some outy ∧
        ∀ k, (lookupO outy k).isSome = true → (lookupO out k).isSome = true) :
    ∀ (a : Option (String × Json)), filterStep x e = some a →
      ∃ b, filterStep y e = some b ∧
        ∀ k v, b = some (k, v) → ∃ w, a = some (k, w) := by
  intro a ha
  cases e with
  | str ks =>
    rcases hly : lookupO y ks with _ | vy
    · refine ⟨none, ?_, fun k v hb => by cases hb⟩
      rw [filterStep.eq_def]
      simp [hly]
    · have hsx := hfil.1 ks vy hly
      rcases hlx : lookupO x ks with _ | vx
      · rw [hlx] at hsx; cases hsx
      · rw [filterStep.eq_def] at ha
        simp only [hlx] at ha
        cases ha
        refine ⟨some (ks, vy), ?_, ?_⟩
        · rw [filterStep.eq_def]
          simp [hly]
        · intro k v hb
          cases hb
          exact ⟨vx, rfl⟩
  | arr l =>
    cases l with
    | nil => rw [filterStep.eq_def] at ha; cases ha
    | cons k0 lrest =>
      cases k0 with
      | str ks =>
        rw [filterStep.eq_def] at ha
        rcases hly : lookupO y ks with _ | vy
        · refine ⟨none, ?_, fun k v hb => by cases hb⟩
          rw [filterStep.eq_def]
          simp [hly]
        · have hsx := hfil.1 ks vy hly
          rcases hlx : lookupO x ks with _ | wx
          · rw [hlx] at hsx; cases hsx
          · have hford := hfil.2 ks vy wx hly hlx
            simp only [hlx] at ha
            cases wx with
            | arr xs =>
              cases hford with
              | arr hfl0 =>
                rename_i ys0
                rcases hflx : filterList lrest.head? xs with _ | ysx
                · simp only [hflx] at ha; cases ha
                · simp only [hflx] at ha
                  cases ha
                  by_cases hxs : xs = []
                  · subst hxs
                    rw [filterList_nil_eq] at hflx
                    cases hflx
                    have hys0 : ys0 = [] := by
                      cases ys0 with
                      | nil => rfl
                      | cons yy yrest =>
                        obtain ⟨⟨xx, hxx, _⟩, _⟩ := FiltrateList.cons_inv hfl0
                        simp at hxx
                    subst hys0
                    refine ⟨none, ?_, fun k v hb => by cases hb⟩
                    rw [filterStep.eq_def]
                    simp [hly, filterList_nil_eq]
                  · obtain ⟨sl, hsl⟩ := filterList_sub_shape hflx hxs
                    rw [hsl] at hflx
                    have hszsl : sizeOf sl < n := lt_of_lt_of_le (sizeOf_sl_in_e hsl) hsz
                    obtain ⟨ysy, hysy, himp⟩ :=
                      filterList_mono_aux sl (fun m my out => IH sl hszsl m my out)
                        ys0 xs ysx hfl0 hflx
                    refine ⟨if 0 < ysy.length then some (ks, .arr ysy) else none, ?_, ?_⟩
                    · rw [filterStep.eq_def]
                      simp only [hly, hsl, hysy]
                    · intro k v hb
                      by_cases hky : 0 < ysy.length
                      · rw [if_pos hky] at hb
                        cases hb
                        rw [if_pos (himp hky)]
                        exact ⟨.arr ysx, rfl⟩
                      · rw [if_neg hky] at hb; cases hb
            | obj m =>
              cases hford with
              | obj h1 h2 =>
                rename_i my
                cases lrest with
                | nil => cases ha
                | cons sub0 lrest2 =>
                  cases sub0 with
                  | arr sl =>
                    rcases hfx : filterObject m sl with _ | fmx
                    · simp only [hfx] at ha; cases ha
                    · simp only [hfx] at ha
                      cases ha
                      have hszsl : sizeOf sl < n := lt_of_lt_of_le sizeOf_sl_in_e2 hsz
                      obtain ⟨fmy, hfmy, hkeys⟩ := IH sl hszsl m my fmx ⟨h1, h2⟩ hfx
                      refine ⟨if 0 < fmy.length then some (ks, .obj fmy) else none, ?_, ?_⟩
                      · rw [filterStep.eq_def]
                        simp only [hly, hfmy]
                      · intro k v hb
                        by_cases hky : 0 < fmy.length
                        · rw [if_pos hky] at hb
                          cases hb
                          have hne2 : fmy ≠ [] := by
                            intro he
                            subst he
                            simp at hky
                          obtain ⟨k0, hk0⟩ := lookupO_isSome_of_ne_nil hne2
                          have h3 := hkeys k0 hk0
                          have h4 := ne_nil_of_lookupO_isSome h3
                          rw [if_pos (List.length_pos.mpr h4)]
                          exact ⟨.obj fmx, rfl⟩
                        · rw [if_neg hky] at hb; cases hb
                  | null => cases ha
                  | bool b2 => cases ha
                  | num n2 => cases ha
                  | str s2 => cases ha
                  | obj m2 => cases ha
            | null =>
              cases ha
              cases hford
              refine ⟨none, ?_, fun k v hb => by cases hb⟩
              rw [filterStep.eq_def]
              simp [hly]
            | bool b2 =>
              cases ha
              cases hford
              refine ⟨none, ?_, fun k v hb => by cases hb⟩
              rw [filterStep.eq_def]
              simp [hly]
            | num n2 =>
              cases ha
              cases hford
              refine ⟨none, ?_, fun k v hb => by cases hb⟩
              rw [filterStep.eq_def]
              simp [hly]
            | str s2 =>
              cases ha
              cases hford
              refine ⟨none, ?_, fun k v hb => by cases hb⟩
              rw [filterStep.eq_def]
              simp [hly]
      | null => rw [filterStep.eq_def] at ha; cases ha
      | bool b2 => rw [filterStep.eq_def] at ha; cases ha
      | num n2 => rw [filterStep.eq_def] at ha; cases ha
      | arr l2 => rw [filterStep.eq_def] at ha; cases ha
      | obj m2 => rw [filterStep.eq_def] at ha; cases ha
  | null =>
    rw [filterStep.eq_def] at ha
    cases ha
    exact ⟨none, by rw [filterStep.eq_def], fun k v hb => by cases hb⟩
  | bool b2 =>
    rw [filterStep.eq_def] at ha
    cases ha
    exact ⟨none, by rw [filterStep.eq_def], fun k v hb => by cases hb⟩
  | num n2 =>
    rw [filterStep.eq_def] at ha
    cases ha
    exact ⟨none, by rw [filterStep.eq_def], fun k v hb => by cases hb⟩
  | obj m2 =>
    rw [filterStep.eq_def] at ha
    cases ha
    exact ⟨none, by rw [filterStep.eq_def], fun k v hb => by cases hb⟩

/-- Projection is monotone over filtrates: it stays defined and its key
set only shrinks. -/
theorem filterObject_mono : ∀ (n : Nat) (arr : List Json), sizeOf arr ≤ n →
    ∀ (x y out : JObj), ObjFiltrate y x → filterObject x arr = some out →
    ∃ outy, filterObject y arr = some outy ∧
      ∀ k, (lookupO outy k).isSome = true → (lookupO out k).isSome = true := by
  intro n
  induction n with
  | zero =>
    intro arr hsz
    exfalso
    have : 0 < sizeOf arr := by cases arr <;> simp <;> omega
    omega
  | succ n ih =>
    intro arr hsz x y out hfil hfo
    rw [filterObject_unfold] at hfo
    have hIH : ∀ (sl : List Json), sizeOf sl < n + 1 → ∀ (m my out2 : JObj),
        ObjFiltrate my m → filterObject m sl = some out2 →
        ∃ outy, filterObject my sl = some outy ∧
          ∀ k, (lookupO outy k).isSome = true → (lookupO out2 k).isSome = true :=
      fun sl hsln m my out2 hf2 hfo2 => ih sl (by omega) m my out2 hf2 hfo2
    have hdef : ∀ e ∈ arr, filterStep y e ≠ none := by
      intro e he
      have hxne := filterFold_defined_steps hfo e he
      rcases hxa : filterStep x e with _ | a
      · exact absurd hxa hxne
      · have hsze : sizeOf e ≤ n + 1 := by
          have := List.sizeOf_lt_of_mem he
          omega
        obtain ⟨b, hb, _⟩ := filterStep_mono_aux (n + 1) hsze hfil hIH a hxa
        rw [hb]
        intro hc
        cases hc
    obtain ⟨outy, houty⟩ := filterFold_of_steps arr [] hdef
    refine ⟨outy, by rw [filterObject_unfold]; exact houty, ?_⟩
    intro k hk
    have hly := filterFold_lookup arr [] outy houty k
    rcases hwy : findWrite y arr k with _ | vy
    · rw [hwy] at hly
      rw [hly] at hk
      simp [lookupO] at hk
    · obtain ⟨e, he, hstep⟩ := findWrite_some_entry hwy
      have hxne := filterFold_defined_steps hfo e he
      rcases hxa : filterStep x e with _ | a
      · exact absurd hxa hxne
      · have hsze : sizeOf e ≤ n + 1 := by
          have := List.sizeOf_lt_of_mem he
          omega
        obtain ⟨b, hb, himp⟩ := filterStep_mono_aux (n + 1) hsze hfil hIH a hxa
        rw [hstep] at hb
        cases hb
        obtain ⟨w, hw⟩ := himp k vy rfl
        subst hw
        have hxw : (findWrite x arr k).isSome := findWrite_isSome_of_entry he ⟨w, hxa⟩
        have hlx := filterFold_lookup arr [] out hfo k
        rcases hwx : findWrite x arr k with _ | vx
        · rw [hwx] at hxw; cases hxw
        · rw [hwx] at hlx
          rw [hlx]
          rfl

theorem filterObject_mono_top {arr : List Json} {x y out : JObj}
    (hfil : ObjFiltrate y x) (h : filterObject x arr = some out) :
    ∃ outy, filterObject y arr = some outy ∧
      ∀ k, (lookupO outy k).isSome = true → (lookupO out k).isSome = true :=
  filterObject_mono (sizeOf arr) arr le_rfl x y out hfil h

theorem filterStep_mono_top {x y : JObj} {e : Json} (hfil : ObjFiltrate y x) :
    ∀ (a : Option (String × Json)), filterStep x e = some a →
      ∃ b, filterStep y e = some b ∧ ∀ k v, b = some (k, v) → ∃ w, a = some (k, w) :=
  filterStep_mono_aux (sizeOf e) le_rfl hfil
    (fun _ _ m my out hf hfo => filterObject_mono_top hf hfo)

theorem ObjEqv_length_pos {a b : JObj} (h : ObjEqv a b) (hb : 0 < b.length) :
    0 < a.length := by
  have hbne : b ≠ [] := by
    intro he
    subst he
    simp at hb
  obtain ⟨k0, hk0⟩ := lookupO_isSome_of_ne_nil hbne
  have h3 : (lookupO a k0).isSome = true := by rw [h.1 k0]; exact hk0
  exact List.length_pos.mpr (ne_nil_of_lookupO_isSome h3)

theorem filterList_idem_aux (sl : List Json)
    (IHsl : ∀ (m rr : JObj), filterObject m sl = some rr →
      ∃ r2, filterObject rr sl = some r2 ∧ ObjEqv r2 rr) :
    ∀ (ys : List Json),
      (∀ y ∈ ys, ∃ m fm, filterObject m sl = some fm ∧ 0 < fm.length ∧ y = .obj fm) →
      ∃ ys2, filterList (some (.arr sl)) ys = some ys2 ∧ List.Forall₂ Jeqv ys2 ys := by
  intro ys
  induction ys with
  | nil => intro _; exact ⟨[], filterList_nil_eq _, .nil⟩
  | cons y rest ih =>
    intro hshape
    obtain ⟨m, fm, hfm, hfmne, rfl⟩ := hshape y (by simp)
    obtain ⟨fm2, hfm2, heqv⟩ := IHsl m fm hfm
    obtain ⟨ys2, hys2, hall⟩ := ih (fun y2 hy2 => hshape y2 (by simp [hy2]))
    have hfm2ne : 0 < fm2.length := ObjEqv_length_pos heqv hfmne
    refine ⟨.obj fm2 :: ys2, ?_, .cons (Jeqv.objIntro heqv) hall⟩
    rw [filterList.eq_def]
    simp only [hfm2, hys2]
    rw [if_pos hfm2ne]

theorem filterStep_idem_entry (n : Nat) {x r : JObj} {e : Json} {k : String} {v : Json}
    (hsz : sizeOf e ≤ n)
    (IH : ∀ (sl : List Json), sizeOf sl < n → ∀ (m rr : JObj), filterObject m sl = some rr →
      ∃ r2, filterObject rr sl = some r2 ∧ ObjEqv r2 rr)
    (hstep : filterStep x e = some (some (k, v)))
    (hlr : lookupO r k = some v) :
    ∃ v2, filterStep r e = some (some (k, v2)) ∧ Jeqv v2 v := by
  rcases filterStep_write hstep with ⟨rfl, _⟩ |
    ⟨lrest, xs, ysx, rfl, _, hfl, hys, rfl⟩ |
    ⟨lrest2, sl, m, fmx, rfl, _, hfx, hfm, rfl⟩
  · refine ⟨v, ?_, Jeqv_refl v⟩
    rw [filterStep.eq_def]
    simp [hlr]
  · have hxs : xs ≠ [] := by
      intro hxe
      subst hxe
      rw [filterList_nil_eq] at hfl
      cases hfl
      simp at hys
    obtain ⟨sl, hsl⟩ := filterList_sub_shape hfl hxs
    rw [hsl] at hfl
    have hszsl : sizeOf sl < n := lt_of_lt_of_le (sizeOf_sl_in_e hsl) hsz
    have hshape := filterList_shape hfl
    obtain ⟨ys2, hys2, hall⟩ := filterList_idem_aux sl (IH sl hszsl) ysx
      (fun y hy => by
        obtain ⟨m, fm, _, h1, h2, h3⟩ := hshape y hy
        exact ⟨m, fm, h1, h2, h3⟩)
    have hlen : ys2.length = ysx.length := List.Forall₂.length_eq hall
    refine ⟨.arr ys2, ?_, .arr hall⟩
    rw [filterStep.eq_def]
    simp only [hlr, hsl, hys2]
    rw [if_pos (by omega)]
  · have hszsl : sizeOf sl < n := lt_of_lt_of_le sizeOf_sl_in_e2 hsz
    obtain ⟨fm2, hfm2, heqv⟩ := IH sl hszsl m fmx hfx
    have hfm2ne : 0 < fm2.length := ObjEqv_length_pos heqv hfm
    refine ⟨.obj fm2, ?_, Jeqv.objIntro heqv⟩
    rw [filterStep.eq_def]
    simp only [hlr, hfm2]
    rw [if_pos hfm2ne]

theorem findWrite_cons_rest {obj : JObj} {e : Json} {rest : List Json} {k : String} {v : Json}
    (h : findWrite obj rest k = some v) :
    findWrite obj (e :: rest) k = some v := by
  rw [findWrite, h]

theorem findWrite_step_nowrite {obj : JObj} {e : Json} {rest : List Json} {k : String}
    (hrest : findWrite obj rest k = none)
    (hstep : filterStep obj e = some none) :
    findWrite obj (e :: rest) k = none := by
  rw [findWrite, hrest, hstep]

theorem findWrite_step_write {obj : JObj} {e : Json} {rest : List Json} {k k2 : String} {v : Json}
    (hrest : findWrite obj rest k = none)
    (hstep : filterStep obj e = some (some (k2, v))) :
    findWrite obj (e :: rest) k = if k2 = k then some v else none := by
  rw [findWrite, hrest, hstep]

theorem findWrite_idem_aux (n : Nat) (x r : JObj)
    (IH : ∀ (sl : List Json), sizeOf sl < n → ∀ (m rr : JObj), filterObject m sl = some rr →
      ∃ r2, filterObject rr sl = some r2 ∧ ObjEqv r2 rr)
    (hfil : ObjFiltrate r x) :
    ∀ (arr : List Json), sizeOf arr ≤ n →
      (∀ e ∈ arr, filterStep x e ≠ none) →
      ∀ (k : String),
        (findWrite x arr k = none → findWrite r arr k = none) ∧
        (∀ v, findWrite x arr k = some v → lookupO r k = some v →
          ∃ v2, findWrite r arr k = some v2 ∧ Jeqv v2 v) := by
  intro arr
  induction arr with
  | nil =>
    intro hsz hdef k
    exact ⟨fun _ => rfl, fun v hv => by cases hv⟩
  | cons e rest ih =>
    intro hsz hdef k
    have hsz2 : sizeOf rest ≤ n := by
      simp only [List.cons.sizeOf_spec] at hsz
      omega
    have ihr := ih hsz2 (fun e2 he2 => hdef e2 (by simp [he2])) k
    have hestep : filterStep x e ≠ none := hdef e (by simp)
    rcases hxa : filterStep x e with _ | a
    · exact absurd hxa hestep
    · obtain ⟨b, hb, himp⟩ := filterStep_mono_top hfil a hxa
      constructor
      · intro hnone
        rcases hwxr : findWrite x rest k with _ | w
        · have hrn := ihr.1 hwxr
          rcases hav : a with _ | p
          · rcases hbv : b with _ | pb
            · exact findWrite_step_nowrite hrn (by rw [hb, hbv])
            · obtain ⟨kb, vb⟩ := pb
              obtain ⟨w2, hw2⟩ := himp kb vb hbv
              rw [hav] at hw2
              cases hw2
          · obtain ⟨k2, v2⟩ := p
            have hxw := findWrite_step_write hwxr (by rw [hxa, hav])
            rw [hxw] at hnone
            have hk2 : k2 ≠ k := by
              intro hk
              rw [if_pos hk] at hnone
              cases hnone
            rcases hbv : b with _ | pb
            · exact findWrite_step_nowrite hrn (by rw [hb, hbv])
            · obtain ⟨kb, vb⟩ := pb
              obtain ⟨w2, hw2⟩ := himp kb vb hbv
              rw [hav] at hw2
              cases hw2
              rw [findWrite_step_write hrn (by rw [hb, hbv]), if_neg hk2]
        · rw [findWrite_cons_rest hwxr] at hnone
          cases hnone
      · intro v hv hlr
        rcases hwxr : findWrite x rest k with _ | w
        · rcases hav : a with _ | p
          · rw [findWrite_step_nowrite hwxr (by rw [hxa, hav])] at hv
            cases hv
          · obtain ⟨k2, v2⟩ := p
            have hxw := findWrite_step_write hwxr (by rw [hxa, hav])
            rw [hxw] at hv
            by_cases hk2 : k2 = k
            · rw [if_pos hk2] at hv
              cases hv
              subst hk2
              have hsze : sizeOf e ≤ n := by
                simp only [List.cons.sizeOf_spec] at hsz
                omega
              obtain ⟨v3, hstep2, heqv⟩ := filterStep_idem_entry n hsze IH
                (by rw [hxa, hav]) hlr
              refine ⟨v3, ?_, heqv⟩
              rw [findWrite_step_write (ihr.1 hwxr) hstep2, if_pos rfl]
            · rw [if_neg hk2] at hv
              cases hv
        · rw [findWrite_cons_rest hwxr] at hv
          cases hv
          obtain ⟨v2, hfr, heqv⟩ := ihr.2 v hwxr hlr
          exact ⟨v2, findWrite_cons_rest hfr, heqv⟩


/-- Idempotence of the projection up to JSON value equivalence. -/
theorem filterObject_idem : ∀ (n : Nat) (arr : List Json), sizeOf arr ≤ n →
    ∀ (x r : JObj), filterObject x arr = some r →
    ∃ r2, filterObject r arr = some r2 ∧ ObjEqv r2 r := by
  intro n
  induction n with
  | zero =>
    intro arr hsz
    exfalso
    have : 0 < sizeOf arr := by cases arr <;> simp <;> omega
    omega
  | succ n ih =>
    intro arr hsz x r hfo
    have hIH : ∀ (sl : List Json), sizeOf sl < n + 1 → ∀ (m rr : JObj),
        filterObject m sl = some rr →
        ∃ r2, filterObject rr sl = some r2 ∧ ObjEqv r2 rr :=
      fun sl hsln m rr hfo2 => ih sl (by omega) m rr hfo2
    have hfil := filterObject_filtrate_top hfo
    obtain ⟨r2, hr2, hkeys⟩ := filterObject_mono_top hfil hfo
    have hfoF := hfo
    rw [filterObject_unfold] at hfoF
    have hr2F := hr2
    rw [filterObject_unfold] at hr2F
    have hdefx : ∀ e ∈ arr, filterStep x e ≠ none := filterFold_defined_steps hfoF
    have haux := findWrite_idem_aux (n + 1) x r hIH hfil arr hsz hdefx
    have hval : ∀ k v, lookupO r k = some v →
        ∃ v2, lookupO r2 k = some v2 ∧ Jeqv v2 v := by
      intro k v hlr
      have hlx := filterFold_lookup arr [] r hfoF k
      rcases hwx : findWrite x arr k with _ | w
      · rw [hwx] at hlx
        rw [hlx] at hlr
        simp [lookupO] at hlr
      · rw [hwx] at hlx
        rw [hlx] at hlr
        cases hlr
        obtain ⟨v2, hfr, heqv⟩ := (haux k).2 v hwx (by rw [hlx])
        have hlr2 := filterFold_lookup arr [] r2 hr2F k
        rw [hfr] at hlr2
        exact ⟨v2, hlr2, heqv⟩
    refine ⟨r2, hr2, ?_, ?_⟩
    · intro k
      rcases hlrk : lookupO r k with _ | v
      · rcases hlr2k : lookupO r2 k with _ | v2
        · rfl
        · have := hkeys k (by simp [hlr2k])
          rw [hlrk] at this
          simp at this
      · obtain ⟨v2, hlr2k, _⟩ := hval k v hlrk
        rw [hlr2k]
        rfl
    · intro k v2 v hlr2k hlrk
      obtain ⟨v2b, hlr2b, heqv⟩ := hval k v hlrk
      rw [hlr2k] at hlr2b
      cases hlr2b
      exact heqv

theorem filterObject_idem_top {arr : List Json} {x r : JObj}
    (h : filterObject x arr = some r) :
    ∃ r2, filterObject r arr = some r2 ∧ ObjEqv r2 r :=
  filterObject_idem (sizeOf arr) arr le_rfl x r h

def OptObjEqv : Option JObj → Option JObj → Prop
  | none, none => True
  | some a, some b => ObjEqv a b
  | _, _ => False

/-- C7: the selector projection is idempotent. For every object x and selector
array s, running filterObject twice agrees with running it once: if the first
projection panics so does the composite, and if it yields r then projecting r
again succeeds and returns a map equal to r (same key set, pointwise equal
values, with Go map equality ignoring association-list order). -/
theorem C7_filterObject_idempotent (x : JObj) (s : List Json) :
    OptObjEqv ((filterObject x s).bind (fun r => filterObject r s))
      (filterObject x s) := by
  rcases h : filterObject x s with _ | r
  · exact trivial
  · obtain ⟨r2, hr2, heqv⟩ := filterObject_idem_top h
    show OptObjEqv (filterObject r s) (some r)
    rw [hr2]
    exact heqv

theorem lookupMem_append {m : List (Nat × HObj)} {a : Nat} {o : HObj}
    (h : lookupMem m a = some o) (ext : List (Nat × HObj)) :
    lookupMem (m ++ ext) a = some o := by
  induction m with
  | nil => cases h
  | cons p rest ih =>
    obtain ⟨a2, o2⟩ := p
    rw [lookupMem] at h
    rw [List.cons_append, lookupMem]
    by_cases ha : a2 = a
    · rw [if_pos ha] at h ⊢
      exact h
    · rw [if_neg ha] at h ⊢
      exact ih h

theorem lookupMem_none_of_low {ext : List (Nat × HObj)} {a n : Nat}
    (hlow : ∀ p ∈ ext, n ≤ p.1) (ha : a < n) : lookupMem ext a = none := by
  induction ext with
  | nil => rfl
  | cons p rest ih =>
    obtain ⟨a2, o2⟩ := p
    rw [lookupMem]
    have h2 := hlow (a2, o2) (by simp)
    rw [if_neg (by omega)]
    exact ih (fun p hp => hlow p (by simp [hp]))

theorem lookupMem_append_low {m ext : List (Nat × HObj)} {a n : Nat}
    (hlow : ∀ p ∈ ext, n ≤ p.1) (ha : a < n) :
    lookupMem (m ++ ext) a = lookupMem m a := by
  induction m with
  | nil => simpa [lookupMem] using lookupMem_none_of_low hlow ha
  | cons p rest ih =>
    obtain ⟨a2, o2⟩ := p
    rw [List.cons_append, lookupMem, lookupMem]
    by_cases h2 : a2 = a
    · rw [if_pos h2, if_pos h2]
    · rw [if_neg h2, if_neg h2]
      exact ih

theorem lookupMem_mem {m : List (Nat × HObj)} {a : Nat} {o : HObj}
    (h : lookupMem m a = some o) : (a, o) ∈ m := by
  induction m with
  | nil => cases h
  | cons p rest ih =>
    obtain ⟨a2, o2⟩ := p
    rw [lookupMem] at h
    by_cases ha : a2 = a
    · rw [if_pos ha] at h
      cases h
      subst ha
      simp
    · rw [if_neg ha] at h
      simp [ih h]

theorem lookupMem_insert_ne {m : List (Nat × HObj)} {a b : Nat} {o : HObj}
    (hne : a ≠ b) : lookupMem (insertMem m b o) a = lookupMem m a := by
  induction m with
  | nil =>
    rw [insertMem, lookupMem, lookupMem, if_neg (by omega)]
    rfl
  | cons p rest ih =>
    obtain ⟨a2, o2⟩ := p
    rw [insertMem]
    by_cases hb : a2 = b
    · rw [if_pos hb, lookupMem, lookupMem, if_neg (by omega), if_neg (by omega)]
    · rw [if_neg hb, lookupMem, lookupMem]
      by_cases ha : a2 = a
      · rw [if_pos ha, if_pos ha]
      · rw [if_neg ha, if_neg ha]
        exact ih

theorem lookupMem_fresh {m : List (Nat × HObj)} {n : Nat} {o : HObj}
    (hlt : ∀ p ∈ m, p.1 < n) : lookupMem (m ++ [(n, o)]) n = some o := by
  induction m with
  | nil => simp [lookupMem]
  | cons p rest ih =>
    obtain ⟨a2, o2⟩ := p
    have h2 := hlt (a2, o2) (by simp)
    rw [List.cons_append, lookupMem, if_neg (by simp at h2; omega)]
    exact ih (fun p hp => hlt p (by simp [hp]))

/-- A value whose reference, if any, lies in the half-open range. -/
def valInRange (v : HVal) (lo hi : Nat) : Prop :=
  match v with
  | .href a => lo ≤ a ∧ a < hi
  | _ => True

theorem valInRange_mono {v : HVal} {lo hi lo2 hi2 : Nat}
    (h : valInRange v lo hi) (hlo : lo2 ≤ lo) (hhi : hi ≤ hi2) :
    valInRange v lo2 hi2 := by
  cases v <;> simp [valInRange] at h ⊢ <;> omega

/-- The tail region of a heap starting at n0 is closed: every cell at an
address at or above n0 only stores references back into that region. -/
def FreshRegion (h : Heap) (n0 : Nat) : Prop :=
  ∀ a o, n0 ≤ a → lookupMem h.mem a = some o →
    ∀ w ∈ o.vals, valInRange w n0 h.next

theorem freshRegion_top {h : Heap} (hwf : WfHeap h) : FreshRegion h h.next := by
  intro a o ha hlk w _
  exfalso
  have hm := lookupMem_mem hlk
  have := hwf.1 (a, o) hm
  simp at this
  omega

theorem lookupMem_append_ne {m ext : List (Nat × HObj)} {a : Nat}
    (hne : ∀ p ∈ ext, p.1 ≠ a) :
    lookupMem (m ++ ext) a = lookupMem m a := by
  induction m with
  | nil =>
    rw [List.nil_append]
    show lookupMem ext a = none
    induction ext with
    | nil => rfl
    | cons p rest ih =>
      obtain ⟨a2, o2⟩ := p
      rw [lookupMem, if_neg (hne (a2, o2) (by simp))]
      exact ih (fun p hp => hne p (by simp [hp]))
  | cons p rest ih =>
    obtain ⟨a2, o2⟩ := p
    rw [List.cons_append, lookupMem, lookupMem]
    by_cases h2 : a2 = a
    · rw [if_pos h2, if_pos h2]
    · rw [if_neg h2, if_neg h2]
      exact ih

theorem deepCopyV_zero (h : Heap) (v : HVal) : deepCopyV 0 h v = none := by
  rw [deepCopyV.eq_def]

theorem deepCopyV_succ_scalar (fuel : Nat) (h : Heap) (v : HVal) (hs : ∀ a, v ≠ .href a) :
    deepCopyV (fuel + 1) h v = some (h, v) := by
  cases v with
  | href a => exact absurd rfl (hs a)
  | hnull => rw [deepCopyV.eq_def]
  | hbool b => rw [deepCopyV.eq_def]
  | hnum n => rw [deepCopyV.eq_def]
  | hstr s => rw [deepCopyV.eq_def]

theorem deepCopyV_succ_href (fuel : Nat) (h : Heap) (a : Nat) :
    deepCopyV (fuel + 1) h (.href a) =
      match lookupMem h.mem a with
      | some (.hmap fields) =>
        match deepCopyFields fuel h fields with
        | some (h2, fields2) => some (allocHeap h2 (.hmap fields2))
        | none => none
      | some (.harr elems) =>
        match deepCopyElems fuel h elems with
        | some (h2, elems2) => some (allocHeap h2 (.harr elems2))
        | none => none
      | none => none := by
  rw [deepCopyV.eq_def]

theorem deepCopyFields_nil (fuel : Nat) (h : Heap) :
    deepCopyFields fuel h [] = some (h, []) := by
  rw [deepCopyFields.eq_def]

theorem deepCopyFields_cons (fuel : Nat) (h : Heap) (k : String) (v : HVal)
    (rest : List (String × HVal)) :
    deepCopyFields fuel h ((k, v) :: rest) =
      match deepCopyV fuel h v with
      | some (h2, v2) =>
        match deepCopyFields fuel h2 rest with
        | some (h3, rest2) => some (h3, (k, v2) :: rest2)
        | none => none
      | none => none := by
  rw [deepCopyFields.eq_def]

theorem deepCopyElems_nil (fuel : Nat) (h : Heap) :
    deepCopyElems fuel h [] = some (h, []) := by
  rw [deepCopyElems.eq_def]

theorem deepCopyElems_cons (fuel : Nat) (h : Heap) (v : HVal) (rest : List HVal) :
    deepCopyElems fuel h (v :: rest) =
      match deepCopyV fuel h v with
      | some (h2, v2) =>
        match deepCopyElems fuel h2 rest with
        | some (h3, rest2) => some (h3, v2 :: rest2)
        | none => none
      | none => none := by
  rw [deepCopyElems.eq_def]

theorem denoteV_zero (h : Heap) (v : HVal) : denoteV 0 h v = none := by
  rw [denoteV.eq_def]

theorem denoteV_succ_scalar (fuel : Nat) (h : Heap) (v : HVal) (hs : ∀ a, v ≠ .href a) :
    denoteV (fuel + 1) h v =
      match v with
      | .hnull => some .null
      | .hbool b => some (.bool b)
      | .hnum n => some (.num n)
      | .hstr s => some (.str s)
      | .href _ => none := by
  cases v with
  | href a => exact absurd rfl (hs a)
  | hnull => rw [denoteV.eq_def]
  | hbool b => rw [denoteV.eq_def]
  | hnum n => rw [denoteV.eq_def]
  | hstr s => rw [denoteV.eq_def]

theorem denoteV_succ_href (fuel : Nat) (h : Heap) (a : Nat) :
    denoteV (fuel + 1) h (.href a) =
      match lookupMem h.mem a with
      | some (.hmap fields) =>
        match denoteFields fuel h fields with
        | some l => some (.obj l)
        | none => none
      | some (.harr elems) =>
        match denoteElems fuel h elems with
        | some l => some (.arr l)
        | none => none
      | none => none := by
  rw [denoteV.eq_def]

theorem denoteFields_nil (fuel : Nat) (h : Heap) : denoteFields fuel h [] = some [] := by
  rw [denoteFields.eq_def]

theorem denoteFields_cons (fuel : Nat) (h : Heap) (k : String) (v : HVal)
    (rest : List (String × HVal)) :
    denoteFields fuel h ((k, v) :: rest) =
      match denoteV fuel h v with
      | some j =>
        match denoteFields fuel h rest with
        | some l => some ((k, j) :: l)
        | none => none
      | none => none := by
  rw [denoteFields.eq_def]

theorem denoteElems_nil (fuel : Nat) (h : Heap) : denoteElems fuel h [] = some [] := by
  rw [denoteElems.eq_def]

theorem denoteElems_cons (fuel : Nat) (h : Heap) (v : HVal) (rest : List HVal) :
    denoteElems fuel h (v :: rest) =
      match denoteV fuel h v with
      | some j =>
        match denoteElems fuel h rest with
        | some l => some (j :: l)
        | none => none
      | none => none := by
  rw [denoteElems.eq_def]

/-- Behaviour of one deepCopy call on a value: the heap only grows by
fresh cells, stays well formed, the fresh tail region stays closed, a
reference copies to a fresh reference and a scalar copies to itself. -/
def SpecV (fuel : Nat) : Prop :=
  ∀ (h : Heap) (v : HVal) (h2 : Heap) (v2 : HVal) (n0 : Nat),
    n0 ≤ h.next → WfHeap h → FreshRegion h n0 →
    deepCopyV fuel h v = some (h2, v2) →
    (∃ ext, h2.mem = h.mem ++ ext ∧ ∀ p ∈ ext, h.next ≤ p.1) ∧
    h.next ≤ h2.next ∧ WfHeap h2 ∧ FreshRegion h2 n0 ∧
    ((∃ a, v = .href a) → ∃ a2, v2 = .href a2 ∧ h.next ≤ a2 ∧ a2 < h2.next) ∧
    ((∀ a, v ≠ .href a) → v2 = v ∧ h2 = h)

def SpecF (fuel : Nat) : Prop :=
  ∀ (fields : List (String × HVal)) (h h3 : Heap) (fields2 : List (String × HVal)) (n0 : Nat),
    n0 ≤ h.next → WfHeap h → FreshRegion h n0 →
    deepCopyFields fuel h fields = some (h3, fields2) →
    (∃ ext, h3.mem = h.mem ++ ext ∧ ∀ p ∈ ext, h.next ≤ p.1) ∧
    h.next ≤ h3.next ∧ WfHeap h3 ∧ FreshRegion h3 n0 ∧
    (∀ w ∈ fields2.map Prod.snd, valInRange w n0 h3.next ∨ (∀ a, w ≠ .href a))

def SpecE (fuel : Nat) : Prop :=
  ∀ (elems : List HVal) (h h3 : Heap) (elems2 : List HVal) (n0 : Nat),
    n0 ≤ h.next → WfHeap h → FreshRegion h n0 →
    deepCopyElems fuel h elems = some (h3, elems2) →
    (∃ ext, h3.mem = h.mem ++ ext ∧ ∀ p ∈ ext, h.next ≤ p.1) ∧
    h.next ≤ h3.next ∧ WfHeap h3 ∧ FreshRegion h3 n0 ∧
    (∀ w ∈ elems2, valInRange w n0 h3.next ∨ (∀ a, w ≠ .href a))

theorem specF_of_specV (fuel : Nat) (hV : SpecV fuel) : SpecF fuel := by
  intro fields
  induction fields with
  | nil =>
    intro h h3 fields2 n0 hn0 hwf hfr hcopy
    rw [deepCopyFields_nil] at hcopy
    cases hcopy
    exact ⟨⟨[], by simp, by simp⟩, le_rfl, hwf, hfr, by simp⟩
  | cons p rest ih =>
    obtain ⟨k, v⟩ := p
    intro h h3 fields2 n0 hn0 hwf hfr hcopy
    rw [deepCopyFields_cons] at hcopy
    rcases hcV : deepCopyV fuel h v with _ | pv
    · simp only [hcV] at hcopy
      cases hcopy
    · obtain ⟨hA, v2⟩ := pv
      simp only [hcV] at hcopy
      rcases hcR : deepCopyFields fuel hA rest with _ | pr
      · simp only [hcR] at hcopy
        cases hcopy
      · obtain ⟨hB, rest2⟩ := pr
        simp only [hcR] at hcopy
        obtain ⟨rfl, rfl⟩ := hcopy
        obtain ⟨⟨ext1, hext1, hlow1⟩, hle1, hwfA, hfrA, hrefc, hscc⟩ :=
          hV h v hA v2 n0 hn0 hwf hfr hcV
        obtain ⟨⟨ext2, hext2, hlow2⟩, hle2, hwfB, hfrB, hvals⟩ :=
          ih hA h3 rest2 n0 (le_trans hn0 hle1) hwfA hfrA hcR
        refine ⟨⟨ext1 ++ ext2, ?_, ?_⟩, le_trans hle1 hle2, hwfB, hfrB, ?_⟩
        · rw [hext2, hext1, List.append_assoc]
        · intro p hp
          rcases List.mem_append.mp hp with h1 | h2
          · exact hlow1 p h1
          · exact le_trans hle1 (hlow2 p h2)
        · intro w hw
          simp only [List.map_cons, List.mem_cons] at hw
          rcases hw with rfl | hw
          · rcases v with _ | b | m | s | a
            · left
              rw [(hscc (fun a ha => by cases ha)).1]
              exact trivial
            · left
              rw [(hscc (fun a ha => by cases ha)).1]
              exact trivial
            · left
              rw [(hscc (fun a ha => by cases ha)).1]
              exact trivial
            · left
              rw [(hscc (fun a ha => by cases ha)).1]
              exact trivial
            · obtain ⟨a2, rfl, hge, hlt⟩ := hrefc ⟨a, rfl⟩
              left
              exact ⟨le_trans hn0 hge, lt_of_lt_of_le hlt hle2⟩
          · exact hvals w hw

theorem specE_of_specV (fuel : Nat) (hV : SpecV fuel) : SpecE fuel := by
  intro elems
  induction elems with
  | nil =>
    intro h h3 elems2 n0 hn0 hwf hfr hcopy
    rw [deepCopyElems_nil] at hcopy
    cases hcopy
    exact ⟨⟨[], by simp, by simp⟩, le_rfl, hwf, hfr, by simp⟩
  | cons v rest ih =>
    intro h h3 elems2 n0 hn0 hwf hfr hcopy
    rw [deepCopyElems_cons] at hcopy
    rcases hcV : deepCopyV fuel h v with _ | pv
    · simp only [hcV] at hcopy
      cases hcopy
    · obtain ⟨hA, v2⟩ := pv
      simp only [hcV] at hcopy
      rcases hcR : deepCopyElems fuel hA rest with _ | pr
      · simp only [hcR] at hcopy
        cases hcopy
      · obtain ⟨hB, rest2⟩ := pr
        simp only [hcR] at hcopy
        obtain ⟨rfl, rfl⟩ := hcopy
        obtain ⟨⟨ext1, hext1, hlow1⟩, hle1, hwfA, hfrA, hrefc, hscc⟩ :=
          hV h v hA v2 n0 hn0 hwf hfr hcV
        obtain ⟨⟨ext2, hext2, hlow2⟩, hle2, hwfB, hfrB, hvals⟩ :=
          ih hA h3 rest2 n0 (le_trans hn0 hle1) hwfA hfrA hcR
        refine ⟨⟨ext1 ++ ext2, ?_, ?_⟩, le_trans hle1 hle2, hwfB, hfrB, ?_⟩
        · rw [hext2, hext1, List.append_assoc]
        · intro p hp
          rcases List.mem_append.mp hp with h1 | h2
          · exact hlow1 p h1
          · exact le_trans hle1 (hlow2 p h2)
        · intro w hw
          simp only [List.mem_cons] at hw
          rcases hw with rfl | hw
          · rcases v with _ | b | m | s | a
            · left
              rw [(hscc (fun a ha => by cases ha)).1]
              exact trivial
            · left
              rw [(hscc (fun a ha => by cases ha)).1]
              exact trivial
            · left
              rw [(hscc (fun a ha => by cases ha)).1]
              exact trivial
            · left
              rw [(hscc (fun a ha => by cases ha)).1]
              exact trivial
            · obtain ⟨a2, rfl, hge, hlt⟩ := hrefc ⟨a, rfl⟩
              left
              exact ⟨le_trans hn0 hge, lt_of_lt_of_le hlt hle2⟩
          · exact hvals w hw

theorem valRefsBelow_mono {v : HVal} {m m2 : Nat} (h : valRefsBelow v m) (hm : m ≤ m2) :
    valRefsBelow v m2 := by
  cases v <;> simp [valRefsBelow] at h ⊢ <;> omega

theorem valRefsBelow_of_range {v : HVal} {lo hi n : Nat} (h : valInRange v lo hi)
    (hn : hi ≤ n) : valRefsBelow v n := by
  cases v <;> simp [valInRange] at h <;> simp [valRefsBelow] <;> omega

theorem valRefsBelow_of_noref {v : HVal} (h : ∀ a, v ≠ .href a) (n : Nat) :
    valRefsBelow v n := by
  cases v with
  | href a => exact absurd rfl (h a)
  | hnull => exact trivial
  | hbool b => exact trivial
  | hnum m => exact trivial
  | hstr s => exact trivial

theorem valInRange_of_noref {v : HVal} (h : ∀ a, v ≠ .href a) (lo hi : Nat) :
    valInRange v lo hi := by
  cases v with
  | href a => exact absurd rfl (h a)
  | hnull => exact trivial
  | hbool b => exact trivial
  | hnum m => exact trivial
  | hstr s => exact trivial


theorem alloc_step {h hx : Heap} {n0 : Nat} (hn0 : n0 ≤ h.next)
    (hle : h.next ≤ hx.next) (hwfx : WfHeap hx) (hfrx : FreshRegion hx n0)
    (ext : List (Nat × HObj)) (hext : hx.mem = h.mem ++ ext)
    (hlow : ∀ p ∈ ext, h.next ≤ p.1) (cell : HObj)
    (hcell : ∀ w ∈ cell.vals, valInRange w n0 hx.next ∨ (∀ a, w ≠ .href a)) :
    (∃ ext2, hx.mem ++ [(hx.next, cell)] = h.mem ++ ext2 ∧ ∀ p ∈ ext2, h.next ≤ p.1) ∧
    h.next ≤ hx.next + 1 ∧
    WfHeap { mem := hx.mem ++ [(hx.next, cell)], next := hx.next + 1 } ∧
    FreshRegion { mem := hx.mem ++ [(hx.next, cell)], next := hx.next + 1 } n0 := by
  refine ⟨⟨ext ++ [(hx.next, cell)], ?_, ?_⟩, by omega, ⟨?_, ?_⟩, ?_⟩
  · rw [hext, List.append_assoc]
  · intro p hp
    rcases List.mem_append.mp hp with h1 | h1
    · exact hlow p h1
    · simp only [List.mem_singleton] at h1
      subst h1
      exact hle
  · intro p hp
    rcases List.mem_append.mp hp with h1 | h1
    · have := hwfx.1 p h1
      show p.1 < hx.next + 1
      omega
    · simp only [List.mem_singleton] at h1
      subst h1
      show hx.next < hx.next + 1
      omega
  · intro p hp
    rcases List.mem_append.mp hp with h1 | h1
    · intro w hw
      exact valRefsBelow_mono (hwfx.2 p h1 w hw) (Nat.le_succ _)
    · simp only [List.mem_singleton] at h1
      subst h1
      intro w hw
      rcases hcell w hw with hr | hs
      · exact valRefsBelow_of_range hr (Nat.le_succ _)
      · exact valRefsBelow_of_noref hs _
  · intro a2 o2 ha2 hlk2
    replace hlk2 : lookupMem (hx.mem ++ [(hx.next, cell)]) a2 = some o2 := hlk2
    by_cases he : a2 = hx.next
    · subst he
      rw [lookupMem_fresh hwfx.1] at hlk2
      cases hlk2
      intro w hw
      rcases hcell w hw with hr | hs
      · exact valInRange_mono hr le_rfl (Nat.le_succ _)
      · exact valInRange_of_noref hs _ _
    · rw [lookupMem_append_ne (fun p hp => by
        simp only [List.mem_singleton] at hp
        subst hp
        show hx.next ≠ a2
        omega)] at hlk2
      intro w hw
      exact valInRange_mono (hfrx a2 o2 ha2 hlk2 w hw) le_rfl (Nat.le_succ _)

theorem specV_all : ∀ fuel, SpecV fuel := by
  intro fuel
  induction fuel with
  | zero =>
    intro h v h2 v2 n0 hn0 hwf hfr hcopy
    rw [deepCopyV_zero] at hcopy
    cases hcopy
  | succ n ih =>
    have hF := specF_of_specV n ih
    have hE := specE_of_specV n ih
    intro h v h2 v2 n0 hn0 hwf hfr hcopy
    cases v with
    | hnull =>
      rw [deepCopyV_succ_scalar n h .hnull (fun a ha => by cases ha)] at hcopy
      cases hcopy
      exact ⟨⟨[], by simp, by simp⟩, le_rfl, hwf, hfr,
        fun hex => absurd hex (by simp), fun _ => ⟨rfl, rfl⟩⟩
    | hbool b =>
      rw [deepCopyV_succ_scalar n h (.hbool b) (fun a ha => by cases ha)] at hcopy
      cases hcopy
      exact ⟨⟨[], by simp, by simp⟩, le_rfl, hwf, hfr,
        fun hex => absurd hex (by simp), fun _ => ⟨rfl, rfl⟩⟩
    | hnum m =>
      rw [deepCopyV_succ_scalar n h (.hnum m) (fun a ha => by cases ha)] at hcopy
      cases hcopy
      exact ⟨⟨[], by simp, by simp⟩, le_rfl, hwf, hfr,
        fun hex => absurd hex (by simp), fun _ => ⟨rfl, rfl⟩⟩
    | hstr s =>
      rw [deepCopyV_succ_scalar n h (.hstr s) (fun a ha => by cases ha)] at hcopy
      cases hcopy
      exact ⟨⟨[], by simp, by simp⟩, le_rfl, hwf, hfr,
        fun hex => absurd hex (by simp), fun _ => ⟨rfl, rfl⟩⟩
    | href a =>
      rw [deepCopyV_succ_href] at hcopy
      rcases hlk : lookupMem h.mem a with _ | o
      · simp only [hlk] at hcopy
        cases hcopy
      · cases o with
        | hmap fields =>
          simp only [hlk] at hcopy
          rcases hcf : deepCopyFields n h fields with _ | pf
          · simp only [hcf] at hcopy
            cases hcopy
          · obtain ⟨hx, fields2⟩ := pf
            simp only [hcf, allocHeap] at hcopy
            cases hcopy
            obtain ⟨⟨ext, hext, hlow⟩, hle, hwfx, hfrx, hvals⟩ :=
              hF fields h hx fields2 n0 hn0 hwf hfr hcf
            obtain ⟨hA, hB, hC, hD⟩ := alloc_step hn0 hle hwfx hfrx ext hext hlow
              (.hmap fields2) hvals
            exact ⟨hA, hB, hC, hD,
              fun _ => ⟨hx.next, rfl, hle, Nat.lt_succ_self _⟩,
              fun hs => absurd rfl (hs a)⟩
        | harr elems =>
          simp only [hlk] at hcopy
          rcases hce : deepCopyElems n h elems with _ | pe
          · simp only [hce] at hcopy
            cases hcopy
          · obtain ⟨hx, elems2⟩ := pe
            simp only [hce, allocHeap] at hcopy
            cases hcopy
            obtain ⟨⟨ext, hext, hlow⟩, hle, hwfx, hfrx, hvals⟩ :=
              hE elems h hx elems2 n0 hn0 hwf hfr hce
            obtain ⟨hA, hB, hC, hD⟩ := alloc_step hn0 hle hwfx hfrx ext hext hlow
              (.harr elems2) hvals
            exact ⟨hA, hB, hC, hD,
              fun _ => ⟨hx.next, rfl, hle, Nat.lt_succ_self _⟩,
              fun hs => absurd rfl (hs a)⟩

/-- Denotation is stable when the heap grows by appended cells: every
lookup that succeeded still returns the same object. -/
theorem denoteExtend : ∀ g : Nat,
    (∀ (h : Heap) (ext : List (Nat × HObj)) (n2 : Nat) (v : HVal) (j : Json),
      denoteV g h v = some j →
      denoteV g { mem := h.mem ++ ext, next := n2 } v = some j) ∧
    (∀ (fields : List (String × HVal)) (h : Heap) (ext : List (Nat × HObj)) (n2 : Nat) (l : JObj),
      denoteFields g h fields = some l →
      denoteFields g { mem := h.mem ++ ext, next := n2 } fields = some l) ∧
    (∀ (elems : List HVal) (h : Heap) (ext : List (Nat × HObj)) (n2 : Nat) (l : List Json),
      denoteElems g h elems = some l →
      denoteElems g { mem := h.mem ++ ext, next := n2 } elems = some l) := by
  intro g
  induction g with
  | zero =>
    refine ⟨?_, ?_, ?_⟩
    · intro h ext n2 v j hden
      rw [denoteV_zero] at hden
      cases hden
    · intro fields h ext n2 l hden
      cases fields with
      | nil =>
        rw [denoteFields_nil] at hden ⊢
        exact hden
      | cons p rest =>
        obtain ⟨k, v⟩ := p
        rw [denoteFields_cons, denoteV_zero] at hden
        cases hden
    · intro elems h ext n2 l hden
      cases elems with
      | nil =>
        rw [denoteElems_nil] at hden ⊢
        exact hden
      | cons v rest =>
        rw [denoteElems_cons, denoteV_zero] at hden
        cases hden
  | succ n ih =>
    obtain ⟨ihV, ihF, ihE⟩ := ih
    have hV : ∀ (h : Heap) (ext : List (Nat × HObj)) (n2 : Nat) (v : HVal) (j : Json),
        denoteV (n + 1) h v = some j →
        denoteV (n + 1) { mem := h.mem ++ ext, next := n2 } v = some j := by
      intro h ext n2 v j hden
      cases v with
      | hnull =>
        rw [denoteV_succ_scalar n h .hnull (fun a ha => by cases ha)] at hden
        rw [denoteV_succ_scalar n _ .hnull (fun a ha => by cases ha)]
        exact hden
      | hbool b =>
        rw [denoteV_succ_scalar n h (.hbool b) (fun a ha => by cases ha)] at hden
        rw [denoteV_succ_scalar n _ (.hbool b) (fun a ha => by cases ha)]
        exact hden
      | hnum m =>
        rw [denoteV_succ_scalar n h (.hnum m) (fun a ha => by cases ha)] at hden
        rw [denoteV_succ_scalar n _ (.hnum m) (fun a ha => by cases ha)]
        exact hden
      | hstr s =>
        rw [denoteV_succ_scalar n h (.hstr s) (fun a ha => by cases ha)] at hden
        rw [denoteV_succ_scalar n _ (.hstr s) (fun a ha => by cases ha)]
        exact hden
      | href a =>
        rw [denoteV_succ_href] at hden
        rw [denoteV_succ_href]
        rcases hlk : lookupMem h.mem a with _ | o
        · simp only [hlk] at hden
          cases hden
        · have hlk2 : lookupMem ({ mem := h.mem ++ ext, next := n2 } : Heap).mem a = some o :=
            lookupMem_append hlk ext
          cases o with
          | hmap fields =>
            simp only [hlk] at hden
            rcases hdf : denoteFields n h fields with _ | l2
            · simp only [hdf] at hden
              cases hden
            · simp only [hdf] at hden
              cases hden
              simp only [hlk2, ihF fields h ext n2 l2 hdf]
          | harr elems =>
            simp only [hlk] at hden
            rcases hde : denoteElems n h elems with _ | l2
            · simp only [hde] at hden
              cases hden
            · simp only [hde] at hden
              cases hden
              simp only [hlk2, ihE elems h ext n2 l2 hde]
    refine ⟨hV, ?_, ?_⟩
    · intro fields
      induction fields with
      | nil =>
        intro h ext n2 l hden
        rw [denoteFields_nil] at hden ⊢
        exact hden
      | cons p rest ihr =>
        obtain ⟨k, v⟩ := p
        intro h ext n2 l hden
        rw [denoteFields_cons] at hden ⊢
        rcases hdv : denoteV (n + 1) h v with _ | j
        · simp only [hdv] at hden
          cases hden
        · simp only [hdv] at hden
          rcases hdr : denoteFields (n + 1) h rest with _ | l2
          · simp only [hdr] at hden
            cases hden
          · simp only [hdr] at hden
            cases hden
            simp only [hV h ext n2 v j hdv, ihr h ext n2 l2 hdr]
    · intro elems
      induction elems with
      | nil =>
        intro h ext n2 l hden
        rw [denoteElems_nil] at hden ⊢
        exact hden
      | cons v rest ihr =>
        intro h ext n2 l hden
        rw [denoteElems_cons] at hden ⊢
        rcases hdv : denoteV (n + 1) h v with _ | j
        · simp only [hdv] at hden
          cases hden
        · simp only [hdv] at hden
          rcases hdr : denoteElems (n + 1) h rest with _ | l2
          · simp only [hdr] at hden
            cases hden
          · simp only [hdr] at hden
            cases hden
            simp only [hV h ext n2 v j hdv, ihr h ext n2 l2 hdr]

/-- Copy correctness: the copy denotes the same JSON value as the original. -/
def CDV (fuel : Nat) : Prop :=
  ∀ (h : Heap) (v : HVal) (h2 : Heap) (v2 : HVal),
    WfHeap h → deepCopyV fuel h v = some (h2, v2) →
    ∀ j, denoteV fuel h v = some j → denoteV fuel h2 v2 = some j

def CDF (fuel : Nat) : Prop :=
  ∀ (fields : List (String × HVal)) (h h3 : Heap) (fields2 : List (String × HVal)),
    WfHeap h → deepCopyFields fuel h fields = some (h3, fields2) →
    ∀ l, denoteFields fuel h fields = some l → denoteFields fuel h3 fields2 = some l

def CDE (fuel : Nat) : Prop :=
  ∀ (elems : List HVal) (h h3 : Heap) (elems2 : List HVal),
    WfHeap h → deepCopyElems fuel h elems = some (h3, elems2) →
    ∀ l, denoteElems fuel h elems = some l → denoteElems fuel h3 elems2 = some l

theorem cdF_of_cdV (fuel : Nat) (hV : CDV fuel) : CDF fuel := by
  intro fields
  induction fields with
  | nil =>
    intro h h3 fields2 hwf hcopy l hden
    rw [deepCopyFields_nil] at hcopy
    cases hcopy
    rw [denoteFields_nil] at hden ⊢
    exact hden
  | cons p rest ihr =>
    obtain ⟨k, v⟩ := p
    intro h h3 fields2 hwf hcopy l hden
    rw [deepCopyFields_cons] at hcopy
    rcases hcV : deepCopyV fuel h v with _ | pv
    · simp only [hcV] at hcopy
      cases hcopy
    · obtain ⟨hA, v2⟩ := pv
      simp only [hcV] at hcopy
      rcases hcR : deepCopyFields fuel hA rest with _ | pr
      · simp only [hcR] at hcopy
        cases hcopy
      · obtain ⟨hB, rest2⟩ := pr
        simp only [hcR] at hcopy
        obtain ⟨rfl, rfl⟩ := hcopy
        rw [denoteFields_cons] at hden
        rcases hdv : denoteV fuel h v with _ | j
        · simp only [hdv] at hden
          cases hden
        · simp only [hdv] at hden
          rcases hdr : denoteFields fuel h rest with _ | l2
          · simp only [hdr] at hden
            cases hden
          · simp only [hdr] at hden
            cases hden
            obtain ⟨⟨ext1, hext1, _⟩, hle1, hwfA, _, _, _⟩ :=
              specV_all fuel h v hA v2 h.next le_rfl hwf (freshRegion_top hwf) hcV
            obtain ⟨⟨ext2, hext2, _⟩, hle2, hwfB, _, _⟩ :=
              specF_of_specV fuel (specV_all fuel) rest hA h3 rest2 hA.next le_rfl
                hwfA (freshRegion_top hwfA) hcR
            have hdva := hV h v hA v2 hwf hcV j hdv
            have hdv3 : denoteV fuel h3 v2 = some j := by
              have h5 := (denoteExtend fuel).1 hA ext2 h3.next v2 j hdva
              rw [← hext2] at h5
              exact h5
            have hdr2 : denoteFields fuel hA rest = some l2 := by
              have h5 := (denoteExtend fuel).2.1 rest h ext1 hA.next l2 hdr
              rw [← hext1] at h5
              exact h5
            have hdr3 := ihr hA h3 rest2 hwfA hcR l2 hdr2
            rw [denoteFields_cons]
            simp only [hdv3, hdr3]

theorem cdE_of_cdV (fuel : Nat) (hV : CDV fuel) : CDE fuel := by
  intro elems
  induction elems with
  | nil =>
    intro h h3 elems2 hwf hcopy l hden
    rw [deepCopyElems_nil] at hcopy
    cases hcopy
    rw [denoteElems_nil] at hden ⊢
    exact hden
  | cons v rest ihr =>
    intro h h3 elems2 hwf hcopy l hden
    rw [deepCopyElems_cons] at hcopy
    rcases hcV : deepCopyV fuel h v with _ | pv
    · simp only [hcV] at hcopy
      cases hcopy
    · obtain ⟨hA, v2⟩ := pv
      simp only [hcV] at hcopy
      rcases hcR : deepCopyElems fuel hA rest with _ | pr
      · simp only [hcR] at hcopy
        cases hcopy
      · obtain ⟨hB, rest2⟩ := pr
        simp only [hcR] at hcopy
        obtain ⟨rfl, rfl⟩ := hcopy
        rw [denoteElems_cons] at hden
        rcases hdv : denoteV fuel h v with _ | j
        · simp only [hdv] at hden
          cases hden
        · simp only [hdv] at hden
          rcases hdr : denoteElems fuel h rest with _ | l2
          · simp only [hdr] at hden
            cases hden
          · simp only [hdr] at hden
            cases hden
            obtain ⟨⟨ext1, hext1, _⟩, hle1, hwfA, _, _, _⟩ :=
              specV_all fuel h v hA v2 h.next le_rfl hwf (freshRegion_top hwf) hcV
            obtain ⟨⟨ext2, hext2, _⟩, hle2, hwfB, _, _⟩ :=
              specE_of_specV fuel (specV_all fuel) rest hA h3 rest2 hA.next le_rfl
                hwfA (freshRegion_top hwfA) hcR
            have hdva := hV h v hA v2 hwf hcV j hdv
            have hdv3 : denoteV fuel h3 v2 = some j := by
              have h5 := (denoteExtend fuel).1 hA ext2 h3.next v2 j hdva
              rw [← hext2] at h5
              exact h5
            have hdr2 : denoteElems fuel hA rest = some l2 := by
              have h5 := (denoteExtend fuel).2.2 rest h ext1 hA.next l2 hdr
              rw [← hext1] at h5
              exact h5
            have hdr3 := ihr hA h3 rest2 hwfA hcR l2 hdr2
            rw [denoteElems_cons]
            simp only [hdv3, hdr3]

theorem cdV_all : ∀ fuel, CDV fuel := by
  intro fuel
  induction fuel with
  | zero =>
    intro h v h2 v2 hwf hcopy j hden
    rw [deepCopyV_zero] at hcopy
    cases hcopy
  | succ n ih =>
    have ihF := cdF_of_cdV n ih
    have ihE := cdE_of_cdV n ih
    intro h v h2 v2 hwf hcopy j hden
    cases v with
    | hnull =>
      rw [deepCopyV_succ_scalar n h .hnull (fun a ha => by cases ha)] at hcopy
      cases hcopy
      exact hden
    | hbool b =>
      rw [deepCopyV_succ_scalar n h (.hbool b) (fun a ha => by cases ha)] at hcopy
      cases hcopy
      exact hden
    | hnum m =>
      rw [deepCopyV_succ_scalar n h (.hnum m) (fun a ha => by cases ha)] at hcopy
      cases hcopy
      exact hden
    | hstr s =>
      rw [deepCopyV_succ_scalar n h (.hstr s) (fun a ha => by cases ha)] at hcopy
      cases hcopy
      exact hden
    | href a =>
      rw [deepCopyV_succ_href] at hcopy
      rw [denoteV_succ_href] at hden
      rcases hlk : lookupMem h.mem a with _ | o
      · simp only [hlk] at hcopy
        cases hcopy
      · cases o with
        | hmap fields =>
          simp only [hlk] at hcopy
          simp only [hlk] at hden
          rcases hcf : deepCopyFields n h fields with _ | pf
          · simp only [hcf] at hcopy
            cases hcopy
          · obtain ⟨hx, fields2⟩ := pf
            simp only [hcf, allocHeap] at hcopy
            cases hcopy
            rcases hdf : denoteFields n h fields with _ | l2
            · simp only [hdf] at hden
              cases hden
            · simp only [hdf] at hden
              cases hden
              rw [denoteV_succ_href]
              obtain ⟨⟨ext, hext, hlow⟩, hle, hwfx, _, _⟩ :=
                specF_of_specV n (specV_all n) fields h hx fields2 h.next le_rfl
                  hwf (freshRegion_top hwf) hcf
              have hlkf : lookupMem (hx.mem ++ [(hx.next, HObj.hmap fields2)]) hx.next = some (HObj.hmap fields2) := lookupMem_fresh hwfx.1
              have hdf2 := ihF fields h hx fields2 hwf hcf l2 hdf
              have hdf3 : denoteFields n ({ mem := hx.mem ++ [(hx.next, HObj.hmap fields2)], next := hx.next + 1 } : Heap) fields2 = some l2 := (denoteExtend n).2.1 fields2 hx [(hx.next, .hmap fields2)] (hx.next + 1) l2 hdf2
              simp only [hlkf, hdf3]
        | harr elems =>
          simp only [hlk] at hcopy
          simp only [hlk] at hden
          rcases hce : deepCopyElems n h elems with _ | pe
          · simp only [hce] at hcopy
            cases hcopy
          · obtain ⟨hx, elems2⟩ := pe
            simp only [hce, allocHeap] at hcopy
            cases hcopy
            rcases hde : denoteElems n h elems with _ | l2
            · simp only [hde] at hden
              cases hden
            · simp only [hde] at hden
              cases hden
              rw [denoteV_succ_href]
              obtain ⟨⟨ext, hext, hlow⟩, hle, hwfx, _, _⟩ :=
                specE_of_specV n (specV_all n) elems h hx elems2 h.next le_rfl
                  hwf (freshRegion_top hwf) hce
              have hlkf : lookupMem (hx.mem ++ [(hx.next, HObj.harr elems2)]) hx.next = some (HObj.harr elems2) := lookupMem_fresh hwfx.1
              have hde2 := ihE elems h hx elems2 hwf hce l2 hde
              have hde3 : denoteElems n ({ mem := hx.mem ++ [(hx.next, HObj.harr elems2)], next := hx.next + 1 } : Heap) elems2 = some l2 := (denoteExtend n).2.2 elems2 hx [(hx.next, .harr elems2)] (hx.next + 1) l2 hde2
              simp only [hlkf, hde3]

theorem reaches_in_range {h : Heap} {v : HVal} {b : Nat} (hr : Reaches h v b)
    (lo hi : Nat)
    (hclosed : ∀ a o, lo ≤ a → a < hi → lookupMem h.mem a = some o →
      ∀ w ∈ o.vals, valInRange w lo hi)
    (hv : valInRange v lo hi) :
    lo ≤ b ∧ b < hi := by
  revert hv
  induction hr with
  | here a =>
    intro hv
    exact hv
  | via a o v2 b2 hlk hmem hr2 ih =>
    intro hv
    exact ih (hclosed a o hv.1 hv.2 hlk v2 hmem)

/-- A value whose reference, if any, satisfies the region predicate. -/
def valInRegion (v : HVal) (P : Nat → Prop) : Prop :=
  match v with
  | .href a => P a
  | _ => True

/-- Two heaps agreeing on a closed region denote every value of the
region identically. -/
theorem denoteAgree : ∀ (g : Nat) (P : Nat → Prop) (h h2 : Heap),
    (∀ a, P a → lookupMem h2.mem a = lookupMem h.mem a) →
    (∀ a o, P a → lookupMem h.mem a = some o → ∀ w ∈ o.vals, valInRegion w P) →
    (∀ v, valInRegion v P → denoteV g h2 v = denoteV g h v) ∧
    (∀ fields, (∀ w ∈ fields.map Prod.snd, valInRegion w P) →
        denoteFields g h2 fields = denoteFields g h fields) ∧
    (∀ elems, (∀ w ∈ elems, valInRegion w P) →
        denoteElems g h2 elems = denoteElems g h elems) := by
  intro g
  induction g with
  | zero =>
    intro P h h2 hagree hcl
    refine ⟨fun v _ => by rw [denoteV_zero, denoteV_zero], ?_, ?_⟩
    · intro fields _
      cases fields with
      | nil => rw [denoteFields_nil, denoteFields_nil]
      | cons p rest =>
        obtain ⟨k, v⟩ := p
        simp only [denoteFields_cons, denoteV_zero]
    · intro elems _
      cases elems with
      | nil => rw [denoteElems_nil, denoteElems_nil]
      | cons v rest =>
        simp only [denoteElems_cons, denoteV_zero]
  | succ n ih =>
    intro P h h2 hagree hcl
    obtain ⟨ihV, ihF, ihE⟩ := ih P h h2 hagree hcl
    have hV : ∀ v, valInRegion v P → denoteV (n + 1) h2 v = denoteV (n + 1) h v := by
      intro v hv
      cases v with
      | hnull =>
        rw [denoteV_succ_scalar n h2 .hnull (fun a ha => by cases ha)]
        rw [denoteV_succ_scalar n h .hnull (fun a ha => by cases ha)]
      | hbool b =>
        rw [denoteV_succ_scalar n h2 (.hbool b) (fun a ha => by cases ha)]
        rw [denoteV_succ_scalar n h (.hbool b) (fun a ha => by cases ha)]
      | hnum m =>
        rw [denoteV_succ_scalar n h2 (.hnum m) (fun a ha => by cases ha)]
        rw [denoteV_succ_scalar n h (.hnum m) (fun a ha => by cases ha)]
      | hstr s =>
        rw [denoteV_succ_scalar n h2 (.hstr s) (fun a ha => by cases ha)]
        rw [denoteV_succ_scalar n h (.hstr s) (fun a ha => by cases ha)]
      | href a =>
        rw [denoteV_succ_href, denoteV_succ_href]
        have ha : P a := hv
        rw [hagree a ha]
        rcases hlk : lookupMem h.mem a with _ | o
        · simp only [hlk]
        · cases o with
          | hmap fields =>
            simp only [hlk]
            rw [ihF fields (hcl a (.hmap fields) ha hlk)]
          | harr elems =>
            simp only [hlk]
            rw [ihE elems (hcl a (.harr elems) ha hlk)]
    refine ⟨hV, ?_, ?_⟩
    · intro fields
      induction fields with
      | nil =>
        intro _
        rw [denoteFields_nil, denoteFields_nil]
      | cons p rest ihr =>
        obtain ⟨k, v⟩ := p
        intro hfs
        rw [denoteFields_cons, denoteFields_cons]
        rw [hV v (hfs v (by simp))]
        rw [ihr (fun w hw => hfs w (by simp [hw]))]
    · intro elems
      induction elems with
      | nil =>
        intro _
        rw [denoteElems_nil, denoteElems_nil]
      | cons v rest ihr =>
        intro hes
        rw [denoteElems_cons, denoteElems_cons]
        rw [hV v (hes v (by simp))]
        rw [ihr (fun w hw => hes w (by simp [hw]))]

theorem denote_write_agree (g : Nat) (P : Nat → Prop) (h : Heap) (b : Nat) (o : HObj)
    (hnb : ¬ P b)
    (hcl : ∀ a o2, P a → lookupMem h.mem a = some o2 → ∀ w ∈ o2.vals, valInRegion w P)
    (v : HVal) (hv : valInRegion v P) :
    denoteV g (writeHeap h b o) v = denoteV g h v := by
  refine (denoteAgree g P h (writeHeap h b o) ?_ hcl).1 v hv
  intro a ha
  exact lookupMem_insert_ne (fun he => hnb (he ▸ ha))

theorem valInRange_of_below {w : HVal} {n : Nat} (h : valRefsBelow w n) :
    valInRange w 0 n := by
  cases w with
  | href a => exact ⟨Nat.zero_le _, h⟩
  | hnull => exact trivial
  | hbool b => exact trivial
  | hnum m => exact trivial
  | hstr s => exact trivial

theorem valInRegion_of_range {w : HVal} {lo hi : Nat} (h : valInRange w lo hi) :
    valInRegion w (fun x => lo ≤ x ∧ x < hi) := by
  cases w with
  | href a => exact h
  | hnull => exact trivial
  | hbool b => exact trivial
  | hnum m => exact trivial
  | hstr s => exact trivial

theorem valInRegion_of_range0 {w : HVal} {n : Nat} (h : valInRange w 0 n) :
    valInRegion w (fun x => x < n) := by
  cases w with
  | href a => exact h.2
  | hnull => exact trivial
  | hbool b => exact trivial
  | hnum m => exact trivial
  | hstr s => exact trivial

/-- C8: context isolation. routeReducer (line 896 of src/blest.go) hands
each batch item a fresh deepCopy of the shared context before running its
pipeline. In the heap model: starting from a well formed heap and a
context value c, make the copy for one item and then the copy for a second
item, as the handler loop does for successive items. Then the two copies
reach disjoint sets of heap cells and neither reaches a cell of the
original context, both copies still denote exactly the JSON value the
original context denotes, and a mutation performed through the first
item's copy - a heap write at any cell that copy reaches - leaves the
denotations of the second item's copy and of the original context
untouched. -/
theorem C8_context_isolation (fuel g : Nat) (h : Heap) (c : HVal)
    (h1 h2 : Heap) (c1 c2 : HVal) (b : Nat) (o : HObj)
    (hwf : WfHeap h) (hc : valRefsBelow c h.next)
    (hcopy1 : deepCopyV fuel h c = some (h1, c1))
    (hcopy2 : deepCopyV fuel h1 c = some (h2, c2))
    (hreach : Reaches h2 c1 b) :
    (∀ b2, Reaches h2 c2 b2 → b2 ≠ b) ∧
    (∀ b0, Reaches h2 c b0 → b0 ≠ b) ∧
    (∀ j, denoteV fuel h c = some j →
      denoteV fuel h2 c1 = some j ∧ denoteV fuel h2 c2 = some j) ∧
    denoteV g (writeHeap h2 b o) c2 = denoteV g h2 c2 ∧
    denoteV g (writeHeap h2 b o) c = denoteV g h2 c := by
  obtain ⟨⟨ext1, hext1, hlow1⟩, hle1, hwf1, hfr1, refc1, scc1⟩ :=
    specV_all fuel h c h1 c1 h.next le_rfl hwf (freshRegion_top hwf) hcopy1
  obtain ⟨⟨ext2, hext2, hlow2⟩, hle2, hwf2, hfr2, refc2, scc2⟩ :=
    specV_all fuel h1 c h2 c2 h1.next le_rfl hwf1 (freshRegion_top hwf1) hcopy2
  cases c with
  | hnull =>
    obtain ⟨rfl, rfl⟩ := scc1 (fun a ha => by cases ha)
    cases hreach
  | hbool bb =>
    obtain ⟨rfl, rfl⟩ := scc1 (fun a ha => by cases ha)
    cases hreach
  | hnum m =>
    obtain ⟨rfl, rfl⟩ := scc1 (fun a ha => by cases ha)
    cases hreach
  | hstr s =>
    obtain ⟨rfl, rfl⟩ := scc1 (fun a ha => by cases ha)
    cases hreach
  | href a0 =>
    have ha0 : a0 < h.next := hc
    obtain ⟨a1, rfl, ha1lo, ha1hi⟩ := refc1 ⟨a0, rfl⟩
    obtain ⟨a2v, rfl, ha2lo, ha2hi⟩ := refc2 ⟨a0, rfl⟩
    have hmem2 : h2.mem = h.mem ++ (ext1 ++ ext2) := by
      rw [hext2, hext1, List.append_assoc]
    have hlow12 : ∀ p ∈ ext1 ++ ext2, h.next ≤ p.1 := by
      intro p hp
      rcases List.mem_append.mp hp with h5 | h5
      · exact hlow1 p h5
      · exact le_trans hle1 (hlow2 p h5)
    have hlk_low : ∀ a, a < h.next → lookupMem h2.mem a = lookupMem h.mem a := by
      intro a ha
      rw [hmem2]
      exact lookupMem_append_low hlow12 ha
    have hlk_mid : ∀ a, a < h1.next → lookupMem h2.mem a = lookupMem h1.mem a := by
      intro a ha
      rw [hext2]
      exact lookupMem_append_low hlow2 ha
    have hcl0 : ∀ a o2, 0 ≤ a → a < h.next → lookupMem h2.mem a = some o2 →
        ∀ w ∈ o2.vals, valInRange w 0 h.next := by
      intro a o2 _ ha hlk w hw
      rw [hlk_low a ha] at hlk
      exact valInRange_of_below (hwf.2 (a, o2) (lookupMem_mem hlk) w hw)
    have hcl1 : ∀ a o2, h.next ≤ a → a < h1.next → lookupMem h2.mem a = some o2 →
        ∀ w ∈ o2.vals, valInRange w h.next h1.next := by
      intro a o2 ha hb2 hlk w hw
      rw [hlk_mid a hb2] at hlk
      exact hfr1 a o2 ha hlk w hw
    have hcl2 : ∀ a o2, h1.next ≤ a → a < h2.next → lookupMem h2.mem a = some o2 →
        ∀ w ∈ o2.vals, valInRange w h1.next h2.next := by
      intro a o2 ha _ hlk w hw
      exact hfr2 a o2 ha hlk w hw
    have hb : h.next ≤ b ∧ b < h1.next :=
      reaches_in_range hreach h.next h1.next hcl1 ⟨ha1lo, ha1hi⟩
    refine ⟨?_, ?_, ?_, ?_, ?_⟩
    · intro b2 hr2
      have hb2 := reaches_in_range hr2 h1.next h2.next hcl2 ⟨ha2lo, ha2hi⟩
      omega
    · intro b0 hr0
      have hb0 := reaches_in_range hr0 0 h.next hcl0 ⟨Nat.zero_le _, ha0⟩
      omega
    · intro j hden
      constructor
      · have hd1 := cdV_all fuel h (.href a0) h1 (.href a1) hwf hcopy1 j hden
        have h5 := (denoteExtend fuel).1 h1 ext2 h2.next (.href a1) j hd1
        rw [← hext2] at h5
        exact h5
      · have hdh1 : denoteV fuel h1 (.href a0) = some j := by
          have h5 := (denoteExtend fuel).1 h ext1 h1.next (.href a0) j hden
          rw [← hext1] at h5
          exact h5
        exact cdV_all fuel h1 (.href a0) h2 (.href a2v) hwf1 hcopy2 j hdh1
    · refine denote_write_agree g (fun x => h1.next ≤ x ∧ x < h2.next) h2 b o
        ?_ ?_ (.href a2v) ⟨ha2lo, ha2hi⟩
      · intro hPb
        omega
      · intro a o2 hPa hlk w hw
        exact valInRegion_of_range (hcl2 a o2 hPa.1 hPa.2 hlk w hw)
    · refine denote_write_agree g (fun x => x < h.next) h2 b o ?_ ?_ (.href a0) ha0
      · intro hPb
        omega
      · intro a o2 hPa hlk w hw
        exact valInRegion_of_range0 (hcl0 a o2 (Nat.zero_le _) hPa hlk w hw)

def c8h0 : Heap := { mem := [(0, HObj.hmap [("k", HVal.hnull)])], next := 1 }

def c8h1 : Heap :=
  { mem := [(0, HObj.hmap [("k", HVal.hnull)]), (1, HObj.hmap [("k", HVal.hnull)])], next := 2 }

def c8h2 : Heap :=
  { mem := [(0, HObj.hmap [("k", HVal.hnull)]), (1, HObj.hmap [("k", HVal.hnull)]),
            (2, HObj.hmap [("k", HVal.hnull)])], next := 3 }

theorem C8_context_isolation_witness :
    WfHeap c8h0 ∧
    ((∀ b2, Reaches c8h2 (.href 2) b2 → b2 ≠ 1) ∧
     (∀ b0, Reaches c8h2 (.href 0) b0 → b0 ≠ 1) ∧
     (∀ j, denoteV 2 c8h0 (.href 0) = some j →
       denoteV 2 c8h2 (.href 1) = some j ∧ denoteV 2 c8h2 (.href 2) = some j) ∧
     denoteV 2 (writeHeap c8h2 1 (HObj.hmap [])) (.href 2) = denoteV 2 c8h2 (.href 2) ∧
     denoteV 2 (writeHeap c8h2 1 (HObj.hmap [])) (.href 0) = denoteV 2 c8h2 (.href 0)) :=
  ⟨by decide,
   C8_context_isolation 2 2 c8h0 (.href 0) c8h1 c8h2 (.href 1) (.href 2) 1 (HObj.hmap [])
     (by decide) (by decide)
     (by simp [deepCopyV, deepCopyFields, lookupMem, allocHeap, c8h0, c8h1])
     (by simp [deepCopyV, deepCopyFields, lookupMem, allocHeap, c8h1, c8h2])
     (Reaches.here 1)⟩
